import Mathlib

set_option maxRecDepth 20000
set_option maxHeartbeats 2000000

/-!
Verification of the link-rewriting core of `amznDocker.py`
(gioxx/telegram-bot-amazon-python).

Text is modelled as `List Char` (`Str`).  Python's `re` module, as used by
the four module-level patterns, is embedded by a small backtracking engine
with numbered capture groups whose matching order (leftmost start, greedy
quantifiers, left-biased alternation, last-capture-wins) follows CPython's.
All four patterns are compiled with `re.IGNORECASE`; case folding is the
ASCII one (the patterns contain ASCII letters only).  Network and Telegram
I/O are modelled by explicit environments; machine-level details (event
loop, HTTP wire format) are abstracted into those environments.
-/

abbrev Str := List Char

/-- Python `str.replace` for a non-empty pattern `p :: pt`: scan left
to right, non-overlapping, replace every occurrence.  The fuel
argument (instantiated with the scanned string's length, which always
suffices) makes the recursion structural, hence kernel-computable. -/
def replGoF (p : Char) (pt rep : Str) : Nat → Str → Str
  | _, [] => []
  | 0, s => s
  | fuel + 1, c :: t =>
    if (p :: pt).isPrefixOf (c :: t) then rep ++ replGoF p pt rep fuel (t.drop pt.length)
    else c :: replGoF p pt rep fuel t

/-- Python `str.replace`.  For the empty pattern CPython inserts the
replacement before every character and at the end. -/
def pyReplace (s pat rep : Str) : Str :=
  match pat with
  | [] => rep ++ s.foldr (fun c acc => c :: (rep ++ acc)) []
  | p :: pt => replGoF p pt rep s.length s

/-- Python's `\s` (`str.isspace` whitespace set, Unicode pattern mode). -/
def pyIsSpace (c : Char) : Bool :=
  c == ' ' || c == '\t' || c == '\n' || c == '\r' ||
  c == '\x0b' || c == '\x0c' ||
  c == '\x1c' || c == '\x1d' || c == '\x1e' || c == '\x1f' ||
  c == '\u0085' || c == ' ' || c == ' ' ||
  (0x2000 ≤ c.toNat && c.toNat ≤ 0x200a) ||
  c == ' ' || c == ' ' || c == ' ' || c == ' ' || c == '　'

def nonSpace (c : Char) : Bool := !pyIsSpace c

def asciiDigit (c : Char) : Bool := '0'.toNat ≤ c.toNat && c.toNat ≤ '9'.toNat

def asciiLowerAlpha (c : Char) : Bool := 'a'.toNat ≤ c.toNat && c.toNat ≤ 'z'.toNat

def asciiAlpha (c : Char) : Bool := asciiLowerAlpha c.toLower

/-- `[0-9A-Za-z]`. -/
def pyAlnum (c : Char) : Bool := asciiDigit c || asciiAlpha c

/-- `[0-9A-Z]` under `re.IGNORECASE`: digits and letters of either case. -/
def asinChar (c : Char) : Bool := asciiDigit c || asciiAlpha c

/-- `[a-z.]` under `re.IGNORECASE`. -/
def tldChar (c : Char) : Bool := asciiAlpha c || c == '.'

/-- `\w` as used by `\b` (ASCII part; the patterns only meet ASCII hosts). -/
def pyIsWordChar (c : Char) : Bool := asciiAlpha c || asciiDigit c || c == '_'

/-- Case-insensitive literal character test (ASCII folding, as the
patterns contain only ASCII letters). -/
def ciEq (pc : Char) (c : Char) : Bool := c.toLower == pc.toLower

/-! ## A backtracking regex engine with capture groups -/

/-- Capture map: `(index, captured text)`, most recent capture first. -/
abbrev GroupMap := List (Nat × Str)

def gget (g : GroupMap) (i : Nat) : Option Str :=
  (g.find? (fun p => p.1 == i)).map (fun p => p.2)

/-- The regex fragments needed by the four module-level patterns.
Quantified subterms are single-character classes, which is all the
source patterns use, so greedy backtracking can try split lengths in
descending order directly. -/
inductive RE where
  | eps
  | cls (p : Char → Bool)
  | cat (a b : RE)
  | alt (a b : RE)
  | opt (a : RE)
  | starCls (p : Char → Bool)
  | repCls (p : Char → Bool) (lo hi : Nat)
  | bnd
  | grp (i : Nat) (a : RE)

/-- Length of the maximal prefix run of characters satisfying `p`. -/
def maxRun (p : Char → Bool) : Str → Nat
  | [] => 0
  | c :: t => if p c then maxRun p t + 1 else 0

/-- The character immediately left of the current position after also
consuming `t` (for `\b`). -/
def prevAfter (pv : Option Char) (t : Str) : Option Char :=
  match t.getLast? with
  | some c => some c
  | none => pv

abbrev MRes := Option (GroupMap × Str)

/-- Greedy quantifier driver: try consuming `n, n-1, …, lo` characters,
longest first, resuming the continuation after each attempt. -/
def descTry (pv : Option Char) (s : Str) (g : GroupMap)
    (k : Option Char → Str → GroupMap → MRes) (lo : Nat) : Nat → MRes
  | 0 => if lo = 0 then k pv s g else none
  | Nat.succ j =>
    if Nat.succ j < lo then none
    else
      match k (prevAfter pv (s.take (Nat.succ j))) (s.drop (Nat.succ j)) g with
      | some r => some r
      | none => descTry pv s g k lo j

def isWordOpt (o : Option Char) : Bool :=
  match o with
  | some c => pyIsWordChar c
  | none => false

/-- CPS matcher.  `pv` is the character left of the current position,
`k` the continuation receiving the new left character, remaining input
and capture map. -/
def mrun : RE → Option Char → Str → GroupMap →
    (Option Char → Str → GroupMap → MRes) → MRes
  | .eps, pv, s, g, k => k pv s g
  | .cls p, _, s, g, k =>
    match s with
    | [] => none
    | c :: t => if p c then k (some c) t g else none
  | .cat a b, pv, s, g, k => mrun a pv s g (fun pv2 t g2 => mrun b pv2 t g2 k)
  | .alt a b, pv, s, g, k =>
    match mrun a pv s g k with
    | some r => some r
    | none => mrun b pv s g k
  | .opt a, pv, s, g, k =>
    match mrun a pv s g k with
    | some r => some r
    | none => k pv s g
  | .starCls p, pv, s, g, k => descTry pv s g k 0 (maxRun p s)
  | .repCls p lo hi, pv, s, g, k => descTry pv s g k lo (min hi (maxRun p s))
  | .bnd, pv, s, g, k => if isWordOpt pv != isWordOpt s.head? then k pv s g else none
  | .grp i a, pv, s, g, k =>
    mrun a pv s g (fun pv2 t g2 => k pv2 t ((i, s.take (s.length - t.length)) :: g2))

structure RMatch where
  start : Nat
  stop : Nat
  whole : Str
  groups : GroupMap
deriving DecidableEq, Repr

/-- Attempt a match at a fixed position (`s` is the suffix starting
there, `pos` its absolute index, `pv` the character just before it). -/
def matchAt (re : RE) (pv : Option Char) (s : Str) (pos : Nat) : Option RMatch :=
  match mrun re pv s [] (fun _ t g => some (g, t)) with
  | some (g, rest) =>
    some ⟨pos, pos + (s.length - rest.length), s.take (s.length - rest.length), g⟩
  | none => none

/-- `re.search` scanning: leftmost starting position wins. -/
def searchAux (re : RE) : Str → Option Char → Nat → Option RMatch
  | [], pv, pos => matchAt re pv [] pos
  | c :: t, pv, pos =>
    match matchAt re pv (c :: t) pos with
    | some m => some m
    | none => searchAux re t (some c) (pos + 1)

def reSearch (re : RE) (s : Str) : Option RMatch := searchAux re s none 0

/-- `re.match`: anchored at position 0 only. -/
def reMatch0 (re : RE) (s : Str) : Option RMatch := matchAt re none s 0

/-- `re.finditer`: non-overlapping matches left to right; after a match
scanning resumes at its end (one further for an empty match). -/
def finditerAux (re : RE) : Nat → Str → Option Char → Nat → List RMatch
  | 0, _, _, _ => []
  | Nat.succ fuel, s, pv, pos =>
    match searchAux re s pv pos with
    | none => []
    | some m =>
      let nxt := if m.stop == m.start then m.stop + 1 else m.stop
      m :: finditerAux re fuel (s.drop (nxt - pos)) (prevAfter pv (s.take (nxt - pos))) nxt

def finditer (re : RE) (s : Str) : List RMatch := finditerAux re (s.length + 1) s none 0

/-! ## The four module-level patterns (lines 32-35 of the source) -/

/-- Case-insensitive literal string. -/
def strCI (s : String) : RE :=
  s.data.foldr (fun c acc => RE.cat (RE.cls (ciEq c)) acc) RE.eps

/-- `https?://` -/
def httpPart : RE := .cat (strCI "http") (.cat (.opt (.cls (ciEq 's'))) (strCI "://"))

/-- `(([^\s]*)\.)?` -/
def subdomainPart : RE :=
  .opt (.grp 1 (.cat (.grp 2 (.starCls nonSpace)) (.cls (ciEq '.'))))

/-- `https?://(([^\s]*)\.)?amazon\.([a-z.]{2,5})(\/d\/([^\s]*)|\/([^\s]*)\/?(?:dp|o|gp|-)\/)(aw\/d\/|product\/)?(B[0-9A-Z]{9})([^\s]*)`, `re.IGNORECASE`. -/
def FULL_URL_REGEX : RE :=
  .cat httpPart
  (.cat subdomainPart
  (.cat (strCI "amazon.")
  (.cat (.grp 3 (.repCls tldChar 2 5))
  (.cat (.grp 4 (.alt
          (.cat (strCI "/d/") (.grp 5 (.starCls nonSpace)))
          (.cat (.cls (ciEq '/'))
            (.cat (.grp 6 (.starCls nonSpace))
              (.cat (.opt (.cls (ciEq '/')))
                (.cat (.alt (strCI "dp") (.alt (strCI "o") (.alt (strCI "gp") (strCI "-"))))
                  (.cls (ciEq '/'))))))))
  (.cat (.opt (.grp 7 (.alt (strCI "aw/d/") (strCI "product/"))))
  (.cat (.grp 8 (.cat (.cls (ciEq 'B')) (.repCls asinChar 9 9)))
        (.grp 9 (.starCls nonSpace))))))))

/-- `https?://(([^\s]*)\.)?(amzn\.to|amzn\.eu)(/d)?/([0-9A-Za-z]+)`, `re.IGNORECASE`. -/
def SHORT_URL_REGEX : RE :=
  .cat httpPart
  (.cat subdomainPart
  (.cat (.grp 3 (.alt (strCI "amzn.to") (strCI "amzn.eu")))
  (.cat (.opt (.grp 4 (strCI "/d")))
  (.cat (.cls (ciEq '/'))
        (.grp 5 (.cat (.cls pyAlnum) (.starCls pyAlnum)))))))

/-- `[-a-zA-Z0-9@:%._+~#=]` -/
def hostChar (c : Char) : Bool :=
  pyAlnum c || c == '-' || c == '@' || c == ':' || c == '%' || c == '.' ||
  c == '_' || c == '+' || c == '~' || c == '#' || c == '='

/-- `[a-zA-Z0-9()]` -/
def tailTldChar (c : Char) : Bool := pyAlnum c || c == '(' || c == ')'

/-- `[-a-zA-Z0-9()@:%_+.~#?&//=]` -/
def tailChar (c : Char) : Bool :=
  pyAlnum c || c == '-' || c == '(' || c == ')' || c == '@' || c == ':' ||
  c == '%' || c == '_' || c == '+' || c == '.' || c == '~' || c == '#' ||
  c == '?' || c == '&' || c == '/' || c == '='

/-- `https?:\/\/(www\.)?[-a-zA-Z0-9@:%._+~#=]{1,256}\.[a-zA-Z0-9()]{1,6}\b([-a-zA-Z0-9()@:%_+.~#?&//=]*)`, `re.IGNORECASE`. -/
def URL_REGEX : RE :=
  .cat httpPart
  (.cat (.opt (.grp 1 (strCI "www.")))
  (.cat (.repCls hostChar 1 256)
  (.cat (.cls (ciEq '.'))
  (.cat (.repCls tailTldChar 1 6)
  (.cat .bnd (.grp 2 (.starCls tailChar)))))))

/-- One character of the configured TLD, as interpolated into the raw
pattern text by the f-string: `.` becomes the regex any-character
(everything but a newline), letters are case-insensitive literals. -/
def tldAtomRE (c : Char) : RE :=
  if c == '.' then .cls (fun x => x != '\n') else .cls (ciEq c)

/-- `https?://(([^\s]*)\.)?amazon\.{AMAZON_TLD}/?([^\s]*)`, `re.IGNORECASE`. -/
def RAW_URL_REGEX (tld : Str) : RE :=
  .cat httpPart
  (.cat subdomainPart
  (.cat (strCI "amazon.")
  (.cat (tld.foldr (fun c acc => RE.cat (tldAtomRE c) acc) RE.eps)
  (.cat (.opt (.cls (ciEq '/')))
        (.grp 3 (.starCls nonSpace))))))

/-- Lines 172-183: return capture group 8 if the pattern matches, the
input otherwise.  Group 8 always participates in a match (see
`C1_get_asin_from_full_url`), so the `.getD` default is unreachable. -/
def get_asin_from_full_url (url : Str) : Str :=
  match reSearch FULL_URL_REGEX url with
  | some m => (gget m.groups 8).getD []
  | none => url

/-! ## Declarative semantics and soundness of the matcher

`Sem e t g g2` says: `e` can consume exactly `t`, transforming the
capture map `g` into `g2`.  (The `\b` node is over-approximated — it
consumes nothing and its context condition is dropped — which keeps the
relation context-free; none of the patterns whose captures we reason
about contain `\b`.) -/

inductive Sem : RE → Str → GroupMap → GroupMap → Prop where
  | eps {g} : Sem .eps [] g g
  | cls {p : Char → Bool} {c g} : p c = true → Sem (.cls p) [c] g g
  | cat {a b t1 t2 g g1 g2} :
      Sem a t1 g g1 → Sem b t2 g1 g2 → Sem (.cat a b) (t1 ++ t2) g g2
  | altL {a b t g g2} : Sem a t g g2 → Sem (.alt a b) t g g2
  | altR {a b t g g2} : Sem b t g g2 → Sem (.alt a b) t g g2
  | optS {a t g g2} : Sem a t g g2 → Sem (.opt a) t g g2
  | optN {a g} : Sem (.opt a) [] g g
  | star {p : Char → Bool} {t g} : t.all p = true → Sem (.starCls p) t g g
  | rep {p : Char → Bool} {lo hi t g} :
      t.all p = true → lo ≤ t.length → t.length ≤ hi → Sem (.repCls p lo hi) t g g
  | bnd {g} : Sem .bnd [] g g
  | grp {i a t g g1} : Sem a t g g1 → Sem (.grp i a) t g ((i, t) :: g1)

theorem prevAfter_nil (pv : Option Char) : prevAfter pv [] = pv := rfl

theorem prevAfter_append (pv : Option Char) (t1 t2 : Str) :
    prevAfter pv (t1 ++ t2) = prevAfter (prevAfter pv t1) t2 := by
  unfold prevAfter
  rw [List.getLast?_append]
  cases t2.getLast? <;> simp

theorem maxRun_le_length (p : Char → Bool) (s : Str) : maxRun p s ≤ s.length := by
  induction s with
  | nil => simp [maxRun]
  | cons c t ih =>
    simp only [maxRun, List.length_cons]
    split <;> omega

theorem all_take_of_le_maxRun {p : Char → Bool} {s : Str} {j : Nat}
    (h : j ≤ maxRun p s) : (s.take j).all p = true := by
  induction s generalizing j with
  | nil => simp
  | cons c t ih =>
    cases j with
    | zero => simp
    | succ j =>
      simp only [maxRun] at h
      split at h
      · next hc =>
        simp only [List.take_succ_cons, List.all_cons, hc, Bool.true_and]
        exact ih (by omega)
      · omega

theorem descTry_sound {pv : Option Char} {s : Str} {g : GroupMap}
    {k : Option Char → Str → GroupMap → MRes} {lo : Nat} {r} :
    ∀ {n : Nat}, descTry pv s g k lo n = some r →
    ∃ j, lo ≤ j ∧ j ≤ n ∧ k (prevAfter pv (s.take j)) (s.drop j) g = some r := by
  intro n
  induction n with
  | zero =>
    intro h
    simp only [descTry] at h
    split at h
    · next h0 => exact ⟨0, by omega, by omega, by simpa [prevAfter_nil] using h⟩
    · exact absurd h (by simp)
  | succ j ih =>
    intro h
    simp only [descTry] at h
    split at h
    · exact absurd h (by simp)
    · next hlo =>
      split at h
      · next val heq =>
        injection h with h
        subst h
        exact ⟨j + 1, by omega, le_refl _, heq⟩
      · obtain ⟨j', h1, h2, h3⟩ := ih h
        exact ⟨j', h1, by omega, h3⟩

/-- Soundness of the CPS matcher: a successful run consumes a prefix
`s.take n` matched by `e` in the declarative semantics, and the
continuation succeeds on the corresponding residue. -/
theorem mrun_sound :
    ∀ (e : RE) (pv : Option Char) (s : Str) (g : GroupMap)
      (k : Option Char → Str → GroupMap → MRes) (r : GroupMap × Str),
    mrun e pv s g k = some r →
    ∃ n g2, n ≤ s.length ∧ Sem e (s.take n) g g2 ∧
      k (prevAfter pv (s.take n)) (s.drop n) g2 = some r := by
  intro e
  induction e with
  | eps =>
    intro pv s g k r h
    exact ⟨0, g, by omega, Sem.eps, by simpa [prevAfter_nil] using h⟩
  | cls p =>
    intro pv s g k r h
    match s with
    | [] => exact absurd h (by simp [mrun])
    | c :: t =>
      simp only [mrun] at h
      split at h
      · next hc =>
        exact ⟨1, g, by simp, Sem.cls hc, by simpa [prevAfter] using h⟩
      · exact absurd h (by simp)
  | cat a b iha ihb =>
    intro pv s g k r h
    simp only [mrun] at h
    obtain ⟨n1, g1, hn1, hs1, hk1⟩ := iha pv s g _ r h
    obtain ⟨n2, g2, hn2, hs2, hk2⟩ := ihb _ _ g1 k r hk1
    refine ⟨n1 + n2, g2, ?_, ?_, ?_⟩
    · have := List.length_drop n1 s
      omega
    · rw [List.take_add]
      exact Sem.cat hs1 hs2
    · rw [List.take_add, prevAfter_append]
      rw [List.drop_drop n2 n1 s] at hk2
      exact hk2
  | alt a b iha ihb =>
    intro pv s g k r h
    simp only [mrun] at h
    split at h
    · next val heq =>
      injection h with h
      subst h
      obtain ⟨n, g2, hn, hs, hk⟩ := iha pv s g k val heq
      exact ⟨n, g2, hn, Sem.altL hs, hk⟩
    · obtain ⟨n, g2, hn, hs, hk⟩ := ihb pv s g k r h
      exact ⟨n, g2, hn, Sem.altR hs, hk⟩
  | opt a iha =>
    intro pv s g k r h
    simp only [mrun] at h
    split at h
    · next val heq =>
      injection h with h
      subst h
      obtain ⟨n, g2, hn, hs, hk⟩ := iha pv s g k val heq
      exact ⟨n, g2, hn, Sem.optS hs, hk⟩
    · exact ⟨0, g, by omega, Sem.optN, by simpa [prevAfter_nil] using h⟩
  | starCls p =>
    intro pv s g k r h
    simp only [mrun] at h
    obtain ⟨j, _, hj2, hk⟩ := descTry_sound h
    exact ⟨j, g, le_trans hj2 (maxRun_le_length p s),
      Sem.star (all_take_of_le_maxRun hj2), hk⟩
  | repCls p lo hi =>
    intro pv s g k r h
    simp only [mrun] at h
    obtain ⟨j, hj1, hj2, hk⟩ := descTry_sound h
    have hjm : j ≤ maxRun p s := le_trans hj2 (by omega)
    have hjl : j ≤ s.length := le_trans hjm (maxRun_le_length p s)
    have hlen : (s.take j).length = j := by
      rw [List.length_take]; omega
    refine ⟨j, g, hjl, Sem.rep (all_take_of_le_maxRun hjm) ?_ ?_, hk⟩
    · omega
    · rw [hlen]; omega
  | bnd =>
    intro pv s g k r h
    simp only [mrun] at h
    split at h
    · exact ⟨0, g, by omega, Sem.bnd, by simpa [prevAfter_nil] using h⟩
    · exact absurd h (by simp)
  | grp i a iha =>
    intro pv s g k r h
    simp only [mrun] at h
    obtain ⟨n, g1, hn, hs, hk⟩ := iha pv s g _ r h
    refine ⟨n, (i, s.take n) :: g1, hn, Sem.grp hs, ?_⟩
    have : s.length - (s.drop n).length = n := by
      rw [List.length_drop]; omega
    rw [this] at hk
    exact hk

/-- Every match produced by `matchAt` is declaratively valid. -/
theorem matchAt_sound {re : RE} {pv : Option Char} {s : Str} {pos : Nat} {m : RMatch}
    (h : matchAt re pv s pos = some m) :
    Sem re m.whole [] m.groups ∧ m.start = pos := by
  unfold matchAt at h
  split at h
  · next g rest heq =>
    obtain ⟨n, g2, hn, hs, hk⟩ := mrun_sound re pv s [] _ (g, rest) heq
    simp only [Option.some.injEq, Prod.mk.injEq] at hk
    injection h with h
    subst h
    have hrest : rest = s.drop n := hk.2.symm
    have hg : g2 = g := hk.1
    have hlen : s.length - rest.length = n := by
      rw [hrest, List.length_drop]; omega
    constructor
    · simp only [hlen]
      rw [← hg]
      exact hs
    · rfl
  · exact absurd h (by simp)

theorem matchAt_stop_ge {re : RE} {pv : Option Char} {s : Str} {pos : Nat} {m : RMatch}
    (h : matchAt re pv s pos = some m) : m.start ≤ m.stop := by
  unfold matchAt at h
  split at h
  · injection h with h
    subst h
    simp
  · exact absurd h (by simp)

theorem searchAux_stop_ge {re : RE} {m : RMatch} :
    ∀ {s : Str} {pv : Option Char} {pos : Nat},
    searchAux re s pv pos = some m → m.start ≤ m.stop := by
  intro s
  induction s with
  | nil =>
    intro pv pos h
    exact matchAt_stop_ge h
  | cons c t ih =>
    intro pv pos h
    simp only [searchAux] at h
    split at h
    · next heq =>
      injection h with h
      subst h
      exact matchAt_stop_ge heq
    · exact ih h

theorem searchAux_sound {re : RE} {m : RMatch} :
    ∀ {s : Str} {pv : Option Char} {pos : Nat},
    searchAux re s pv pos = some m → Sem re m.whole [] m.groups ∧ pos ≤ m.start := by
  intro s
  induction s with
  | nil =>
    intro pv pos h
    simp only [searchAux] at h
    have := matchAt_sound h
    exact ⟨this.1, by omega⟩
  | cons c t ih =>
    intro pv pos h
    simp only [searchAux] at h
    split at h
    · next heq =>
      injection h with h
      subst h
      have := matchAt_sound heq
      exact ⟨this.1, by omega⟩
    · have := ih h
      exact ⟨this.1, by omega⟩

theorem reSearch_sound {re : RE} {s : Str} {m : RMatch}
    (h : reSearch re s = some m) : Sem re m.whole [] m.groups :=
  (searchAux_sound h).1

theorem finditerAux_sound {re : RE} {m : RMatch} :
    ∀ {fuel : Nat} {s : Str} {pv : Option Char} {pos : Nat},
    m ∈ finditerAux re fuel s pv pos →
    Sem re m.whole [] m.groups ∧ pos ≤ m.start := by
  intro fuel
  induction fuel with
  | zero => intro s pv pos h; simp [finditerAux] at h
  | succ fuel ih =>
    intro s pv pos h
    simp only [finditerAux] at h
    split at h
    · simp at h
    · next m' heq =>
      rcases List.mem_cons.mp h with h | h
      · subst h
        exact searchAux_sound heq
      · have h1 := ih h
        have h2 := (searchAux_sound heq).2
        have hse := searchAux_stop_ge heq
        refine ⟨h1.1, ?_⟩
        have h3 := h1.2
        split at h3
        · next hbeq =>
          have : m'.stop = m'.start := by simpa using hbeq
          omega
        · next hbeq =>
          have : ¬ m'.stop = m'.start := by simpa using hbeq
          omega

theorem finditer_sound {re : RE} {s : Str} {m : RMatch}
    (h : m ∈ finditer re s) : Sem re m.whole [] m.groups :=
  (finditerAux_sound h).1

/-- Matches reported by `finditer` appear in strictly increasing
left-to-right position order. -/
theorem finditer_ordered (re : RE) (s : Str) :
    (finditer re s).Pairwise (fun a b => a.start < b.start) := by
  suffices h : ∀ (fuel : Nat) (t : Str) (pv : Option Char) (pos : Nat),
      (finditerAux re fuel t pv pos).Pairwise (fun a b => a.start < b.start) from
    h _ s none 0
  intro fuel
  induction fuel with
  | zero => intro t pv pos; simp [finditerAux]
  | succ fuel ih =>
    intro t pv pos
    simp only [finditerAux]
    split
    · simp
    · next m heq =>
      refine List.pairwise_cons.mpr ⟨?_, ih _ _ _⟩
      intro b hb
      have hb' := (finditerAux_sound hb).2
      have hse : m.start ≤ m.stop := searchAux_stop_ge heq
      split at hb'
      · next hbeq =>
        have : m.stop = m.start := by simpa using hbeq
        omega
      · next hbeq =>
        have : ¬ m.stop = m.start := by simpa using hbeq
        omega

/-! ## Inversion lemmas for `Sem` -/

theorem sem_cat_inv {a b : RE} {t : Str} {g g2 : GroupMap} (h : Sem (.cat a b) t g g2) :
    ∃ t1 t2 g1, t = t1 ++ t2 ∧ Sem a t1 g g1 ∧ Sem b t2 g1 g2 := by
  cases h with
  | cat h1 h2 => exact ⟨_, _, _, rfl, h1, h2⟩

theorem sem_grp_inv {i : Nat} {a : RE} {t : Str} {g g2 : GroupMap}
    (h : Sem (.grp i a) t g g2) :
    ∃ g1, g2 = (i, t) :: g1 ∧ Sem a t g g1 := by
  cases h with
  | grp h1 => exact ⟨_, rfl, h1⟩

theorem sem_cls_inv {p : Char → Bool} {t : Str} {g g2 : GroupMap}
    (h : Sem (.cls p) t g g2) :
    ∃ c, t = [c] ∧ p c = true ∧ g2 = g := by
  cases h with
  | cls hc => exact ⟨_, rfl, hc, rfl⟩

theorem sem_star_inv {p : Char → Bool} {t : Str} {g g2 : GroupMap}
    (h : Sem (.starCls p) t g g2) : t.all p = true ∧ g2 = g := by
  cases h with
  | star h1 => exact ⟨h1, rfl⟩

theorem sem_rep_inv {p : Char → Bool} {lo hi : Nat} {t : Str} {g g2 : GroupMap}
    (h : Sem (.repCls p lo hi) t g g2) :
    t.all p = true ∧ lo ≤ t.length ∧ t.length ≤ hi ∧ g2 = g := by
  cases h with
  | rep h1 h2 h3 => exact ⟨h1, h2, h3, rfl⟩

/-- ASCII case analysis of `Char.toLower`. -/
theorem toLower_eq_b {c : Char} (h : c.toLower = 'b') : c = 'B' ∨ c = 'b' := by
  simp only [Char.toLower] at h
  split at h
  · next hc =>
    left
    have hval : (c.toNat + 32).isValidChar := Or.inl (by omega)
    have htn : (Char.ofNat (c.toNat + 32)).toNat = c.toNat + 32 := by
      simp only [Char.ofNat, hval, dif_pos]
      rfl
    have hb : (Char.ofNat (c.toNat + 32)).toNat = ('b').toNat := congrArg Char.toNat h
    have hbn : ('b').toNat = 98 := by decide
    rw [htn, hbn] at hb
    have h66 : c.toNat = 66 := by omega
    apply Char.ext
    apply UInt32.toNat.inj
    simpa [Char.toNat] using h66
  · exact Or.inr h

/-- Any declarative match of the full-URL pattern captures, in group 8,
a string of exactly one `B` (either case, `re.IGNORECASE`) followed by
nine alphanumerics. -/
theorem sem_full_group8 {t : Str} {g1 g2 : GroupMap}
    (h : Sem FULL_URL_REGEX t g1 g2) :
    ∃ c rest, gget g2 8 = some (c :: rest) ∧ (c = 'B' ∨ c = 'b') ∧
      rest.all asinChar = true ∧ rest.length = 9 := by
  unfold FULL_URL_REGEX at h
  obtain ⟨_, _, _, _, _, h⟩ := sem_cat_inv h
  obtain ⟨_, _, _, _, _, h⟩ := sem_cat_inv h
  obtain ⟨_, _, _, _, _, h⟩ := sem_cat_inv h
  obtain ⟨_, _, _, _, _, h⟩ := sem_cat_inv h
  obtain ⟨_, _, _, _, _, h⟩ := sem_cat_inv h
  obtain ⟨_, _, _, _, _, h⟩ := sem_cat_inv h
  obtain ⟨u1, u2, gF, _, hG8, hG9⟩ := sem_cat_inv h
  obtain ⟨gG2, hg2eq, hst⟩ := sem_grp_inv hG9
  obtain ⟨_, hgg⟩ := sem_star_inv hst
  subst hgg
  obtain ⟨gH, hgeq, hb⟩ := sem_grp_inv hG8
  subst hgeq
  subst hg2eq
  obtain ⟨v1, v2, gX, hveq, hcl, hrep⟩ := sem_cat_inv hb
  obtain ⟨c, hc1, hc2, _⟩ := sem_cls_inv hcl
  obtain ⟨hall, hlo, hhi, _⟩ := sem_rep_inv hrep
  subst hveq
  subst hc1
  refine ⟨c, v2, ?_, ?_, hall, by omega⟩
  · simp [gget, List.find?]
  · have hlow : c.toLower = 'b' := by
      have h1 : c.toLower = ('B').toLower := by
        simpa [ciEq] using hc2
      have h2 : ('B').toLower = 'b' := by decide
      rw [h1, h2]
    exact toLower_eq_b hlow

/-- Any declarative match of the short-URL pattern captures, in group 5,
a non-empty alphanumeric token — whether or not the optional `/d` path
piece (group 4) participated. -/
theorem sem_short_group5 {t : Str} {g1 g2 : GroupMap}
    (h : Sem SHORT_URL_REGEX t g1 g2) :
    ∃ c rest, gget g2 5 = some (c :: rest) ∧ pyAlnum c = true ∧
      rest.all pyAlnum = true := by
  unfold SHORT_URL_REGEX at h
  obtain ⟨_, _, _, _, _, h⟩ := sem_cat_inv h
  obtain ⟨_, _, _, _, _, h⟩ := sem_cat_inv h
  obtain ⟨_, _, _, _, _, h⟩ := sem_cat_inv h
  obtain ⟨_, _, _, _, _, h⟩ := sem_cat_inv h
  obtain ⟨w1, w2, gE, _, _, hG5⟩ := sem_cat_inv h
  obtain ⟨gF, hgeq, hb⟩ := sem_grp_inv hG5
  subst hgeq
  obtain ⟨x1, x2, gY, hxeq, hcl, hst⟩ := sem_cat_inv hb
  obtain ⟨c, hc1, hc2, _⟩ := sem_cls_inv hcl
  obtain ⟨hall, _⟩ := sem_star_inv hst
  subst hxeq
  subst hc1
  exact ⟨c, x2, by simp [gget, List.find?], hc2, hall⟩

/-! ## C1 -/

/-- C1: if the full-link pattern matches anywhere in the input, then
`get_asin_from_full_url` returns exactly the dedicated capture group 8 —
a 10-character token consisting of `B` (either case, the pattern is
case-insensitive) followed by nine alphanumerics; if the pattern does
not match, the input is returned unchanged, so a caller detects "not
found" by comparing the result with the input. -/
theorem C1_get_asin_from_full_url (url : Str) :
    match reSearch FULL_URL_REGEX url with
    | some m =>
      ∃ c rest, gget m.groups 8 = some (c :: rest) ∧
        get_asin_from_full_url url = c :: rest ∧
        (c = 'B' ∨ c = 'b') ∧ rest.all asinChar = true ∧
        (c :: rest).length = 10
    | none => get_asin_from_full_url url = url := by
  cases heq : reSearch FULL_URL_REGEX url with
  | none => simp [get_asin_from_full_url, heq]
  | some m =>
    obtain ⟨c, rest, hg, hB, hall, hlen⟩ := sem_full_group8 (reSearch_sound heq)
    refine ⟨c, rest, hg, ?_, hB, hall, by simp [hlen]⟩
    simp [get_asin_from_full_url, heq, hg]

/-! ## Python truthiness helpers -/

/-- `a or b` where `a` is `None` or a string (empty string is falsy). -/
def pyOrStr (a : Option Str) (b : Str) : Str :=
  match a with
  | some s => if s.isEmpty then b else s
  | none => b

/-- `a or b` for two optional strings. -/
def pyOrOpt (a b : Option Str) : Option Str :=
  match a with
  | some s => if s.isEmpty then b else some s
  | none => b

/-- Truthiness of an optional string. -/
def truthyOpt (a : Option Str) : Bool :=
  match a with
  | some s => !s.isEmpty
  | none => false

/-! ## `get_amazon_tag` (lines 44-69)

The call `random.random()` is modelled by the rational `r` (the float
comparison `random.random() < 0.35` becomes `r < 35/100`), and
`random.choice` by an arbitrary index `choiceIdx` reduced modulo the
pool size.  `random.choice` on an empty sequence raises `IndexError`,
modelled as `.error ()`.  (The "Using alternate affiliate tag" log only
accompanies the success branch and is not modelled here.) -/

def alternate_tags : List Str := ["gioxx-21".data]

def get_amazon_tag (supportDev : Bool) (r : ℚ) (choiceIdx : Nat)
    (original_tag : Str) : Except Unit Str :=
  if supportDev = false then .ok original_tag
  else if r < 35 / 100 then
    match alternate_tags.filter (fun tag => tag != original_tag) with
    | [] => .error ()
    | t :: ts => .ok ((t :: ts).getD (choiceIdx % (t :: ts).length) t)
  else .ok original_tag

/-- Line 88-99: `build_amazon_url` (with the tag already selected). -/
def build_amazon_url (tld asin selected_tag : Str) : Str :=
  "https://www.amazon.".data ++ tld ++ "/dp/".data ++ asin ++ "?tag=".data ++ selected_tag

/-! ## `get_long_url` (lines 143-170)

The HTTP environment maps a call index and URL to an outcome; `.err`
stands for any transport-level fault raised by the GET (also used when
the GET is handed `None`, which raises before any I/O).  The result
records the returned value (`none` is Python's `None` sentinel), the
number of recursive self-calls issued, and the log lines printed. -/

inductive HttpOutcome where
  | resp (status : Nat) (location : Option Str)
  | err
deriving DecidableEq, Repr

inductive LogEntry where
  | shortUrlError (url : Option Str)
  | foundNonAmazon (url : Str)
  | ignoredUser (mention : Str)
  | longUrlLine (full_url : Str) (asin : Option Str) (mention : Str) (deleted : Bool)
  | bugReport
deriving DecidableEq, Repr

structure Resolution where
  full_url : Option Str
  short_url : Option Str
deriving DecidableEq, Repr

structure GLRes where
  res : Option Resolution
  recs : Nat
  logs : List LogEntry
deriving DecidableEq, Repr

def redirectStatus (n : Nat) : Bool :=
  n == 301 || n == 302 || n == 303 || n == 307 || n == 308

def get_long_url (chains : Bool) (maxDepth : Nat) (env : Nat → Str → HttpOutcome)
    (idx : Nat) (url : Option Str) (chain_depth : Nat) : GLRes :=
  match url with
  | none =>
    -- `session.get(None)` raises inside the `try`; caught and logged
    { res := none, recs := 0, logs := [.shortUrlError none] }
  | some u =>
    match env idx u with
    | .err => { res := none, recs := 0, logs := [.shortUrlError (some u)] }
    | .resp status loc =>
      if redirectStatus status then
        if _h : chains = true ∧ chain_depth + 1 < maxDepth then
          let inner := get_long_url chains maxDepth env (idx + 1) loc (chain_depth + 1)
          match inner.res with
          | some r =>
            { res := some ⟨r.full_url, some u⟩, recs := inner.recs + 1, logs := inner.logs }
          | none =>
            -- `next_redirect['full_url']` on `None` raises `TypeError`,
            -- caught by this level's handler and logged
            { res := none, recs := inner.recs + 1,
              logs := inner.logs ++ [.shortUrlError (some u)] }
        else { res := some ⟨loc, some u⟩, recs := 0, logs := [] }
      else { res := some ⟨some u, some u⟩, recs := 0, logs := [] }
termination_by maxDepth - chain_depth
decreasing_by omega

/-! ## Telegram-side data and the message pipeline (lines 185-361) -/

structure TUser where
  username : Option Str
  first_name : Str
  last_name : Option Str
  uid : Int
deriving DecidableEq, Repr

structure TEntity where
  isTextLink : Bool
  offset : Nat
  length : Nat
  url : Str
deriving DecidableEq, Repr

structure TMsg where
  chat_type : Str
  chat_id : Int
  message_id : Int
  from_user : TUser
  text : Option Str
  caption : Option Str
  entities : List TEntity
  photo : List Nat
  reply_to : Option Int
deriving DecidableEq, Repr

structure Cfg where
  channel_name : Option Str
  raw_links : Bool
  check_for_redirects : Bool
  check_for_redirect_chains : Bool
  max_redirect_chain_depth : Nat
  group_replacement_message : Str
  amazon_tld : Str
  usernames_to_ignore : List Str
  user_ids_to_ignore : List Int

/-- Lines 185-195.  A falsy (`None` or empty) username selects the
first-name/last-name form; `last_name or ''` guards `None`. -/
def build_mention (u : TUser) : Str :=
  if truthyOpt u.username then '@' :: u.username.getD []
  else u.first_name ++ ' ' :: pyOrStr u.last_name []

/-- Lines 197-206. -/
def is_group (chat_type : Str) : Bool :=
  chat_type == "group".data || chat_type == "supergroup".data

/-- One message candidate (the dicts built in lines 330-346). -/
structure Candidate where
  asin : Option Str
  expanded_url : Option Str
  full_url : Str
deriving DecidableEq, Repr

/-! `get_amazon_url` performs tag randomisation and optional bit.ly
shortening; `build_message` and `handle_message` are parameterised by a
`sponsor` environment `Nat → Candidate → Except Unit Str` producing the
resolved affiliate URL of the i-th processed candidate (an `.error`
models a fault raised inside resolution, e.g. a network error in
`shorten_url`). -/

/-- The group-branch loop of `build_message` (lines 222-225): replace
every occurrence of each candidate's matched text by its resolved URL,
sequentially. -/
def build_message_group_fold (sponsor : Nat → Candidate → Except Unit Str) :
    Nat → Str → List Candidate → Except Unit Str
  | _, acc, [] => .ok acc
  | i, acc, e :: es =>
    match sponsor i e with
    | .error u => .error u
    | .ok s => build_message_group_fold sponsor (i + 1) (pyReplace acc e.full_url s) es

/-- Line 227: `\n`-escape normalisation followed by the three
placeholder substitutions, in source order. -/
def renderTemplate (tmpl mention affiliate original : Str) : Str :=
  pyReplace
    (pyReplace
      (pyReplace
        (pyReplace tmpl "\\n".data "\n".data)
        "{USER}".data mention)
      "{MESSAGE}".data affiliate)
    "{ORIGINAL_MESSAGE}".data original

/-- The literal bullet prefix of line 230 (the file's raw bytes decode
to these three characters followed by a space). -/
def bulletMark : Str := "â€¢ ".data

def build_message_private_lines (sponsor : Nat → Candidate → Except Unit Str) :
    Nat → List Candidate → Except Unit (List Str)
  | _, [] => .ok []
  | i, e :: es =>
    match sponsor i e with
    | .error u => .error u
    | .ok s => (build_message_private_lines sponsor (i + 1) es).map (fun l => (bulletMark ++ s) :: l)

/-- Lines 208-233. In a private chat with an empty candidate list
`replacements[0]` raises `IndexError` (`.error`); `handle_message` only
calls this with a non-empty list. -/
def build_message (tmpl : Str) (sponsor : Nat → Candidate → Except Unit Str)
    (chat_type : Str) (message : Str) (replacements : List Candidate)
    (user : TUser) : Except Unit Str :=
  if is_group chat_type then
    match build_message_group_fold sponsor 0 message replacements with
    | .error u => .error u
    | .ok affiliate =>
      .ok (renderTemplate tmpl (build_mention user) affiliate message)
  else
    if replacements.length > 1 then
      (build_message_private_lines sponsor 0 replacements).map (List.intercalate "\n".data)
    else
      match replacements with
      | [] => .error ()
      | e :: _ => sponsor 0 e

/-- Lines 329-330. -/
def raw_candidates (tld : Str) (text : Str) : List Candidate :=
  (finditer (RAW_URL_REGEX tld) text).map (fun m => ⟨none, none, m.whole⟩)

/-- Lines 332-333. -/
def full_candidates (text : Str) : List Candidate :=
  (finditer FULL_URL_REGEX text).map (fun m => ⟨gget m.groups 8, none, m.whole⟩)

/-- Lines 338-346, for one successfully resolved short match.  In
non-raw mode a `None` expanded URL flows into
`get_asin_from_full_url(None)` and raises `TypeError`; otherwise a
failed extraction (empty or echoed input) falls back to the short
match's capture group 5. -/
def short_candidate (rawLinks : Bool) (m : RMatch) (r : Resolution) :
    Except Unit Candidate :=
  if rawLinks then .ok ⟨none, r.full_url, m.whole⟩
  else
    match r.full_url with
    | none => .error ()
    | some f =>
      let a := get_asin_from_full_url f
      let a2 := if a.isEmpty || a == f then (gget m.groups 5).getD [] else a
      .ok ⟨some a2, none, m.whole⟩

/-- The short-link loop of lines 335-346.  `resolve i u` models the
`get_long_url` call for the i-th short match (instantiated with
`get_long_url` itself in `process_message`); a `none` result (`if url:`
falsy) drops the candidate and continues. -/
def short_candidates (rawLinks : Bool) (resolve : Nat → Str → GLRes) :
    Nat → List RMatch → Except Unit (List Candidate) × List LogEntry
  | _, [] => (.ok [], [])
  | si, m :: ms =>
    let g := resolve si m.whole
    match g.res with
    | none =>
      let rest := short_candidates rawLinks resolve (si + 1) ms
      (rest.1, g.logs ++ rest.2)
    | some r =>
      match short_candidate rawLinks m r with
      | .error u => (.error u, g.logs)
      | .ok c =>
        let rest := short_candidates rawLinks resolve (si + 1) ms
        (rest.1.map (fun l => c :: l), g.logs ++ rest.2)

/-- Lines 316-321: collect redirect resolutions for the non-Amazon
URLs, with their log lines, threading the call-site index. -/
def phase1_collect (tld : Str) (resolve : Nat → Str → GLRes) :
    Nat → List RMatch → List (Option Resolution) × List LogEntry × Nat
  | si, [] => ([], [], si)
  | si, m :: ms =>
    if (reMatch0 SHORT_URL_REGEX m.whole).isNone &&
       (reMatch0 (RAW_URL_REGEX tld) m.whole).isNone then
      let g := resolve si m.whole
      let rest := phase1_collect tld resolve (si + 1) ms
      (g.res :: rest.1, LogEntry.foundNonAmazon m.whole :: (g.logs ++ rest.2.1), rest.2.2)
    else phase1_collect tld resolve si ms

/-- Lines 323-325: apply the collected expansions (`None` entries and
falsy `full_url`s are skipped). -/
def phase1_apply : Str → List (Option Resolution) → Str
  | text, [] => text
  | text, none :: rs => phase1_apply text rs
  | text, some r :: rs =>
    if truthyOpt r.full_url then
      phase1_apply (pyReplace text (r.short_url.getD []) (r.full_url.getD [])) rs
    else phase1_apply text rs

/-- Python slice `s[:o]` (negative indices count from the end). -/
def pySliceTo (s : Str) (o : Int) : Str :=
  if o < 0 then s.take ((s.length : Int) + o).toNat else s.take o.toNat

/-- Python slice `s[o:]`. -/
def pySliceFrom (s : Str) (o : Int) : Str :=
  if o < 0 then s.drop ((s.length : Int) + o).toNat else s.drop o.toNat

def rtl_go : Str → Int → List TEntity → Str
  | text, _, [] => text
  | text, shift, e :: es =>
    if e.isTextLink then
      let off : Int := (e.offset : Int) + shift
      rtl_go
        (pySliceTo text off ++ e.url ++ pySliceFrom text (off + (e.length : Int)))
        (shift + ((e.url.length : Int) - (e.length : Int))) es
    else rtl_go text shift es

/-- Lines 269-290: flatten `text_link` entities into plain URLs.
Slicing a `None` text (entities present but no text) raises. -/
def replace_text_links (msg : TMsg) : Except Unit (Option Str) :=
  if msg.entities.isEmpty then .ok msg.text
  else
    match msg.text with
    | none => .error ()
    | some t => .ok (some (rtl_go t 0 msg.entities))

/-! ## Effects and the outbound shell -/

inductive Eff where
  | deleteMessage (chat_id msg_id : Int)
  | sendMessage (toChannel : Bool) (text : Str) (reply_to : Option Int)
  | sendPhoto (toChannel : Bool) (caption : Str) (reply_to : Option Int)
  | logLine (e : LogEntry)
deriving DecidableEq, Repr

/-- Outcome environment for the Telegram/network calls of one message:
each bot API call either succeeds (its effect is recorded) or raises. -/
structure BotEnv where
  http : Nat → Nat → Str → HttpOutcome
  sponsor : Nat → Candidate → Except Unit Str
  delete_ok : Except Unit Unit
  send_message_ok : Bool → Except Unit Unit
  send_photo_ok : Bool → Except Unit Unit

/-- The send phase of `delete_and_send` (lines 256-267), entered with
the effects and `deleted` flag of the deletion phase. -/
def dns_send (cfg : Cfg) (env : BotEnv) (msg : TMsg) (text : Str)
    (effs : List Eff) (deleted : Bool) : List Eff × Except Unit Bool :=
  if truthyOpt msg.caption && is_group msg.chat_type then
    match msg.photo.getLast? with
    | none => (effs, .error ())
    | some _ =>
      match env.send_photo_ok false with
      | .error u => (effs, .error u)
      | .ok _ =>
        if truthyOpt cfg.channel_name then
          match env.send_photo_ok true with
          | .error u => (effs ++ [.sendPhoto false text msg.reply_to], .error u)
          | .ok _ =>
            (effs ++ [.sendPhoto false text msg.reply_to,
                      .sendPhoto true text msg.reply_to], .ok deleted)
        else (effs ++ [.sendPhoto false text msg.reply_to], .ok deleted)
  else
    match env.send_message_ok false with
    | .error u => (effs, .error u)
    | .ok _ =>
      if truthyOpt cfg.channel_name then
        match env.send_message_ok true with
        | .error u => (effs ++ [.sendMessage false text msg.reply_to], .error u)
        | .ok _ =>
          (effs ++ [.sendMessage false text msg.reply_to,
                    .sendMessage true text msg.reply_to], .ok deleted)
      else (effs ++ [.sendMessage false text msg.reply_to], .ok deleted)

/-- Lines 235-267.  The deletion precedes every send; a fault at any
call aborts the rest but keeps the effects already performed. -/
def delete_and_send (cfg : Cfg) (env : BotEnv) (msg : TMsg) (text : Str) :
    List Eff × Except Unit Bool :=
  if is_group msg.chat_type then
    match env.delete_ok with
    | .error u => ([], .error u)
    | .ok _ =>
      dns_send cfg env msg text [.deleteMessage msg.chat_id msg.message_id] true
  else dns_send cfg env msg text [] false

/-- Lowercased author handle, `""` for a falsy username (line 307). -/
def from_username_of (msg : TMsg) : Str :=
  if truthyOpt msg.from_user.username then (msg.from_user.username.getD []).map Char.toLower
  else []

def is_ignored (cfg : Cfg) (msg : TMsg) : Bool :=
  cfg.usernames_to_ignore.contains (from_username_of msg) ||
  cfg.user_ids_to_ignore.contains msg.from_user.uid

/-- The guard of line 310. -/
def process_guard (cfg : Cfg) (msg : TMsg) : Bool :=
  (!is_ignored cfg msg) || (!is_group msg.chat_type)

/-- The `get_long_url` invocation as made by `handle_message` for its
`si`-th resolution call site. -/
def pm_resolve (cfg : Cfg) (env : BotEnv) : Nat → Str → GLRes :=
  fun si u =>
    get_long_url cfg.check_for_redirect_chains cfg.max_redirect_chain_depth
      (env.http si) 0 (some u) 0

/-- Lines 315-325: the optional redirect-expansion phase; returns the
(possibly rewritten) working text, its log lines, and the next call
site index. -/
def pm_phase (cfg : Cfg) (env : BotEnv) (text0 : Str) : Str × List LogEntry × Nat :=
  if cfg.check_for_redirects then
    let c := phase1_collect cfg.amazon_tld (pm_resolve cfg env) 0 (finditer URL_REGEX text0)
    (phase1_apply text0 c.1, c.2.1, c.2.2)
  else (text0, [], 0)

/-- Lines 327-333: the raw-or-full candidate family (the two scanning
modes are mutually exclusive on the raw-links flag). -/
def pm_rawfull (cfg : Cfg) (text1 : Str) : List Candidate :=
  if cfg.raw_links then raw_candidates cfg.amazon_tld text1
  else full_candidates text1

/-- Lines 311-356 (the guarded branch): link flattening, optional
redirect expansion, candidate detection, composition and dispatch.  A
`None` working text faults at its first use as a pattern-target. -/
def process_message (cfg : Cfg) (env : BotEnv) (msg : TMsg) :
    List Eff × Except Unit Unit :=
  match replace_text_links msg with
  | .error u => ([], .error u)
  | .ok t0 =>
    match pyOrOpt t0 msg.caption with
    | none => ([], .error ())
    | some text0 =>
      let ph := pm_phase cfg env text0
      let text1 := ph.1
      let rawfull := pm_rawfull cfg text1
      let sh := short_candidates cfg.raw_links (pm_resolve cfg env) ph.2.2
        (finditer SHORT_URL_REGEX text1)
      let preEffs := (ph.2.1 ++ sh.2).map Eff.logLine
      match sh.1 with
      | .error u => (preEffs, .error u)
      | .ok shorts =>
        let replacements := rawfull ++ shorts
        if replacements.isEmpty then (preEffs, .ok ())
        else
          match build_message cfg.group_replacement_message env.sponsor
              msg.chat_type text1 replacements msg.from_user with
          | .error u => (preEffs, .error u)
          | .ok text2 =>
            match delete_and_send cfg env msg text2 with
            | (effs, .error u) => (preEffs ++ effs, .error u)
            | (effs, .ok deleted) =>
              (preEffs ++ effs ++ replacements.map (fun e =>
                Eff.logLine (.longUrlLine e.full_url e.asin (build_mention msg.from_user) deleted)),
               .ok ())

/-- Lines 305-361 minus the `except` arm. -/
def handle_message_body (cfg : Cfg) (env : BotEnv) (msg : TMsg) :
    List Eff × Except Unit Unit :=
  if process_guard cfg msg then process_message cfg env msg
  else ([.logLine (.ignoredUser (build_mention msg.from_user))], .ok ())

/-- Lines 305-361: any fault from the body is caught, the bug-report
pointer is logged, and nothing is re-raised. -/
def handle_message (cfg : Cfg) (env : BotEnv) (msg : TMsg) : List Eff :=
  match handle_message_body cfg env msg with
  | (effs, .ok _) => effs
  | (effs, .error _) => effs ++ [.logLine .bugReport]

/-! ## C2: bounded redirect recursion -/

theorem get_long_url_recs_le (chains : Bool) (maxDepth : Nat) (env : Nat → Str → HttpOutcome) :
    ∀ (n idx : Nat) (url : Option Str) (d : Nat), maxDepth - d ≤ n →
      (get_long_url chains maxDepth env idx url d).recs ≤ maxDepth - (d + 1) := by
  intro n
  induction n with
  | zero =>
    intro idx url d hd
    cases url with
    | none => unfold get_long_url; simp
    | some u =>
      unfold get_long_url
      dsimp only
      split
      · simp
      · split
        · split
          · next hch => exact absurd hch.2 (by omega)
          · simp
        · simp
  | succ n ih =>
    intro idx url d hd
    cases url with
    | none => unfold get_long_url; simp
    | some u =>
      unfold get_long_url
      dsimp only
      split
      · simp
      · rename_i status loc henv
        split
        · split
          · next hch =>
            obtain ⟨hc1, hc2⟩ := hch
            have hin := ih (idx + 1) loc (d + 1) (by omega)
            cases hres : (get_long_url chains maxDepth env (idx + 1) loc (d + 1)).res with
            | some r =>
              simp only [hres]
              simp
              omega
            | none =>
              simp only [hres]
              simp
              omega
          · simp
        · simp

/-- C2: `get_long_url` starting at depth 0 issues at most `maxDepth`
recursive follows (in fact at most `maxDepth - 1`); with chain-following
disabled it never recurses; and whenever a redirect arrives while the
incremented depth has reached the bound, it returns the last-seen
`Location` with zero further recursion and no fault. -/
theorem C2_get_long_url_bounded (chains : Bool) (maxDepth : Nat)
    (env : Nat → Str → HttpOutcome) (idx : Nat) (url : Option Str) :
    ((get_long_url chains maxDepth env idx url 0).recs ≤ maxDepth) ∧
    (chains = false →
      ∀ d, (get_long_url chains maxDepth env idx url d).recs = 0) ∧
    (∀ (u : Str) (status : Nat) (loc : Option Str) (d : Nat),
      env idx u = .resp status loc → redirectStatus status = true →
      ¬ (chains = true ∧ d + 1 < maxDepth) →
      get_long_url chains maxDepth env idx (some u) d =
        { res := some ⟨loc, some u⟩, recs := 0, logs := [] }) := by
  refine ⟨?_, ?_, ?_⟩
  · have h := get_long_url_recs_le chains maxDepth env maxDepth idx url 0 (by omega)
    omega
  · intro hch d
    cases url with
    | none => unfold get_long_url; simp
    | some u =>
      unfold get_long_url
      dsimp only
      split
      · simp
      · split
        · split
          · next hc => exact absurd hc.1 (by rw [hch]; simp)
          · simp
        · simp
  · intro u status loc d henv hst hnot
    unfold get_long_url
    dsimp only
    rw [henv]
    dsimp only
    rw [if_pos hst, dif_neg hnot]

theorem C2_witness :
    ((get_long_url true 2 (fun _ _ => .resp 301 (some "https://a.example".data)) 0
        (some "https://a.example".data) 0).recs ≤ 2) ∧
    get_long_url true 2 (fun _ _ => .resp 301 (some "https://a.example".data)) 0
        (some "https://a.example".data) 1 =
      { res := some ⟨some "https://a.example".data, some "https://a.example".data⟩,
        recs := 0, logs := [] } :=
  ⟨(C2_get_long_url_bounded true 2 (fun _ _ => .resp 301 (some "https://a.example".data)) 0
      (some "https://a.example".data)).1,
   (C2_get_long_url_bounded true 2 (fun _ _ => .resp 301 (some "https://a.example".data)) 0
      (some "https://a.example".data)).2.2 "https://a.example".data 301
      (some "https://a.example".data) 1 rfl (by decide) (by decide)⟩

/-! ## C6: transport faults are caught and only the affected candidate is dropped -/

theorem short_candidate_full_url {raw : Bool} {m : RMatch} {r : Resolution} {c : Candidate}
    (h : short_candidate raw m r = .ok c) : c.full_url = m.whole := by
  unfold short_candidate at h
  split at h
  · injection h with h
    subst h
    rfl
  · split at h
    · exact absurd h (by simp)
    · dsimp only at h
      injection h with h
      subst h
      rfl

theorem short_candidates_frame (raw : Bool) (resolve resolve' : Nat → Str → GLRes)
    (bad : Str)
    (hagree : ∀ i u, u ≠ bad → resolve i u = resolve' i u)
    (hbad : ∀ i, (resolve i bad).res = none) :
    ∀ (ms : List RMatch) (si : Nat) (l : List Candidate),
      (short_candidates raw resolve' si ms).1 = .ok l →
      (short_candidates raw resolve si ms).1 =
        .ok (l.filter (fun c => c.full_url != bad)) := by
  intro ms
  induction ms with
  | nil =>
    intro si l h
    simp only [short_candidates] at h ⊢
    injection h with h
    subst h
    rfl
  | cons m ms ih =>
    intro si l h
    simp only [short_candidates] at h ⊢
    by_cases hbm : m.whole = bad
    · have h1 : (resolve si m.whole).res = none := by rw [hbm]; exact hbad si
      rw [h1]
      dsimp only
      cases hres : (resolve' si m.whole).res with
      | none =>
        rw [hres] at h
        dsimp only at h
        exact ih (si + 1) l h
      | some r =>
        rw [hres] at h
        dsimp only at h
        cases hsc : short_candidate raw m r with
        | error u =>
          rw [hsc] at h
          dsimp only at h
          exact absurd h (by simp)
        | ok c =>
          rw [hsc] at h
          dsimp only at h
          cases hrest : (short_candidates raw resolve' (si + 1) ms).1 with
          | error u => rw [hrest] at h; simp [Except.map] at h
          | ok l2 =>
            rw [hrest] at h
            simp only [Except.map] at h
            injection h with h
            subst h
            have hc := short_candidate_full_url hsc
            have hdrop : ((c :: l2).filter (fun c => c.full_url != bad)) =
                l2.filter (fun c => c.full_url != bad) := by
              simp [List.filter_cons, hc, hbm]
            rw [hdrop]
            exact ih (si + 1) l2 hrest
    · have heqr : resolve si m.whole = resolve' si m.whole := hagree si m.whole hbm
      rw [heqr]
      cases hres : (resolve' si m.whole).res with
      | none =>
        rw [hres] at h
        dsimp only at h ⊢
        exact ih (si + 1) l h
      | some r =>
        rw [hres] at h
        dsimp only at h ⊢
        cases hsc : short_candidate raw m r with
        | error u =>
          rw [hsc] at h
          dsimp only at h
          exact absurd h (by simp)
        | ok c =>
          rw [hsc] at h
          dsimp only at h ⊢
          cases hrest : (short_candidates raw resolve' (si + 1) ms).1 with
          | error u => rw [hrest] at h; simp [Except.map] at h
          | ok l2 =>
            rw [hrest] at h
            simp only [Except.map] at h
            injection h with h
            subst h
            have hc := short_candidate_full_url hsc
            have hkeep : ((c :: l2).filter (fun c => c.full_url != bad)) =
                c :: l2.filter (fun c => c.full_url != bad) := by
              simp [List.filter_cons, hc, hbm]
            rw [hkeep]
            have := ih (si + 1) l2 hrest
            rw [this]
            rfl

/-- C6: a transport-level fault inside `get_long_url` is caught: the
function returns the `None` sentinel together with the error log line
instead of propagating; and in the caller's short-link loop, turning
one URL's resolution into a failure removes exactly the candidates of
that URL from the outcome — every other candidate of the same message
is still produced. -/
theorem C6_transport_fault_is_local :
    (∀ (chains : Bool) (maxDepth : Nat) (env : Nat → Str → HttpOutcome)
       (idx : Nat) (u : Str) (d : Nat),
      env idx u = .err →
      get_long_url chains maxDepth env idx (some u) d =
        { res := none, recs := 0, logs := [.shortUrlError (some u)] }) ∧
    (∀ (raw : Bool) (resolve resolve' : Nat → Str → GLRes) (bad : Str)
       (ms : List RMatch) (si : Nat) (l : List Candidate),
      (∀ i u, u ≠ bad → resolve i u = resolve' i u) →
      (∀ i, (resolve i bad).res = none) →
      (short_candidates raw resolve' si ms).1 = .ok l →
      (short_candidates raw resolve si ms).1 =
        .ok (l.filter (fun c => c.full_url != bad))) := by
  constructor
  · intro chains maxDepth env idx u d henv
    unfold get_long_url
    dsimp only
    rw [henv]
  · intro raw resolve resolve' bad ms si l h1 h2 h3
    exact short_candidates_frame raw resolve resolve' bad h1 h2 ms si l h3

theorem C6_witness :
    get_long_url false 2 (fun _ _ => .err) 0 (some "https://amzn.to/x".data) 0 =
      { res := none, recs := 0,
        logs := [.shortUrlError (some "https://amzn.to/x".data)] } ∧
    (short_candidates false
        (fun _ u => if u = "https://amzn.to/bad".data then ⟨none, 0, []⟩
          else ⟨some ⟨some "https://www.amazon.com/dp/B012345678".data, some u⟩, 0, []⟩)
        0
        [⟨0, 19, "https://amzn.to/bad".data, []⟩,
         ⟨20, 38, "https://amzn.to/ok".data, []⟩]).1 =
      .ok [⟨some "B012345678".data, none, "https://amzn.to/ok".data⟩] := by
  constructor
  · exact C6_transport_fault_is_local.1 false 2 (fun _ _ => .err) 0
      "https://amzn.to/x".data 0 rfl
  · have h := C6_transport_fault_is_local.2 false
      (fun i u => if u = "https://amzn.to/bad".data then ⟨none, 0, []⟩
        else ⟨some ⟨some "https://www.amazon.com/dp/B012345678".data, some u⟩, 0, []⟩)
      (fun _ u => ⟨some ⟨some "https://www.amazon.com/dp/B012345678".data, some u⟩, 0, []⟩)
      "https://amzn.to/bad".data
      [⟨0, 19, "https://amzn.to/bad".data, []⟩,
       ⟨20, 38, "https://amzn.to/ok".data, []⟩]
      0
      [⟨some "B012345678".data, none, "https://amzn.to/bad".data⟩,
       ⟨some "B012345678".data, none, "https://amzn.to/ok".data⟩]
      (fun _ _ hne => if_neg hne)
      (fun _ => by simp)
      (by rfl)
    exact h.trans (by rfl)

/-! ## C8: the short-link token fallback -/

/-- C8: in non-raw mode, when a short link's expansion succeeds but
ASIN extraction fails (empty result or input echoed back), the
candidate's ASIN is the short match's capture group 5 — whatever the
rest of the match looked like, in particular regardless of group 4
(`/d`) — and the candidate is appended, never dropped; moreover the
token of group 5 exists and is a non-empty alphanumeric string for
every short-pattern match, with or without the `/d` form. -/
theorem C8_short_link_asin_fallback :
    (∀ (m : RMatch) (r : Resolution) (f : Str), r.full_url = some f →
      ((get_asin_from_full_url f).isEmpty || (get_asin_from_full_url f == f)) = true →
      short_candidate false m r =
        .ok ⟨some ((gget m.groups 5).getD []), none, m.whole⟩) ∧
    (∀ (text : Str) (m : RMatch), m ∈ finditer SHORT_URL_REGEX text →
      ∃ c rest, gget m.groups 5 = some (c :: rest) ∧ pyAlnum c = true ∧
        rest.all pyAlnum = true) := by
  constructor
  · intro m r f hf hfail
    unfold short_candidate
    rw [if_neg (by simp)]
    rw [hf]
    dsimp only
    rw [if_pos hfail]
  · intro text m hm
    exact sem_short_group5 (finditer_sound hm)

theorem C8_witness :
    short_candidate false ⟨0, 22, "https://amzn.eu/d/AB12".data, [(5, "AB12".data), (4, "/d".data), (3, "amzn.eu".data)]⟩
        ⟨some "https://example.com/page".data, some "https://amzn.eu/d/AB12".data⟩ =
      .ok ⟨some "AB12".data, none, "https://amzn.eu/d/AB12".data⟩ ∧
    (∃ c rest,
      gget ([(5, "AB12".data), (4, "/d".data), (3, "amzn.eu".data)] : GroupMap) 5 =
        some (c :: rest) ∧ pyAlnum c = true ∧ rest.all pyAlnum = true) := by
  constructor
  · have h := C8_short_link_asin_fallback.1
      ⟨0, 22, "https://amzn.eu/d/AB12".data, [(5, "AB12".data), (4, "/d".data), (3, "amzn.eu".data)]⟩
      ⟨some "https://example.com/page".data, some "https://amzn.eu/d/AB12".data⟩
      "https://example.com/page".data rfl (by decide)
    exact h.trans (by rfl)
  · exact C8_short_link_asin_fallback.2 "https://amzn.eu/d/AB12".data
      ⟨0, 22, "https://amzn.eu/d/AB12".data, [(5, "AB12".data), (4, "/d".data), (3, "amzn.eu".data)]⟩
      (by decide)

/-! ## C9: tag selection is not total -/

/-- C9: `get_amazon_tag` can fail.  With the developer-support feature
on and the 35%-probability branch taken, the hard-coded one-element
alternate pool is filtered against the primary tag; if the primary tag
is exactly that sole alternate (`gioxx-21`), the pool is empty and
`random.choice` raises instead of falling back to the primary tag. -/
theorem C9_get_amazon_tag_not_total :
    (∃ (r : ℚ) (j : Nat) (orig : Str), get_amazon_tag true r j orig = .error ()) ∧
    (∀ (r : ℚ) (j : Nat), r < 35 / 100 →
      get_amazon_tag true r j "gioxx-21".data = .error ()) := by
  constructor
  · refine ⟨0, 0, "gioxx-21".data, ?_⟩
    unfold get_amazon_tag
    rw [if_neg (by simp), if_pos (by norm_num)]
    rfl
  · intro r j hr
    unfold get_amazon_tag
    rw [if_neg (by simp), if_pos hr]
    rfl

theorem C9_witness : get_amazon_tag true 0 0 "gioxx-21".data = .error () :=
  C9_get_amazon_tag_not_total.2 0 0 (by norm_num)

/-! ## C10: the ignore filter only applies to group chats -/

/-- C10: for a private (non-group) chat `handle_message` takes the
processing branch even when the author is on an ignore list, and the
ignored-and-skipped branch is taken exactly when the author is ignored
and the chat is a group or supergroup. -/
theorem C10_ignore_filter_groups_only (cfg : Cfg) (env : BotEnv) (msg : TMsg) :
    (is_group msg.chat_type = false →
      handle_message_body cfg env msg = process_message cfg env msg) ∧
    (process_guard cfg msg = false ↔
      (is_ignored cfg msg = true ∧ is_group msg.chat_type = true)) := by
  constructor
  · intro hpriv
    unfold handle_message_body
    rw [if_pos]
    unfold process_guard
    rw [hpriv]
    simp
  · unfold process_guard
    cases hI : is_ignored cfg msg <;> cases hG : is_group msg.chat_type <;> simp

theorem C10_witness :
    handle_message_body
      ⟨none, false, false, false, 2, [], "com".data, ["alice".data], [7]⟩
      ⟨fun _ _ _ => .err, fun _ _ => .error (), .error (), fun _ => .error (), fun _ => .error ()⟩
      ⟨"private".data, 1, 2, ⟨some "Alice".data, "A".data, none, 7⟩,
        some "hi".data, none, [], [], none⟩ =
    process_message
      ⟨none, false, false, false, 2, [], "com".data, ["alice".data], [7]⟩
      ⟨fun _ _ _ => .err, fun _ _ => .error (), .error (), fun _ => .error (), fun _ => .error ()⟩
      ⟨"private".data, 1, 2, ⟨some "Alice".data, "A".data, none, 7⟩,
        some "hi".data, none, [], [], none⟩ :=
  (C10_ignore_filter_groups_only _ _ _).1 (by decide)

/-! ## `str.replace` occurrence lemmas (for C4/C5) -/

/-- `pat` occurs somewhere in the scanned string. -/
def occursIn (pat : Str) : Str → Bool
  | [] => false
  | c :: t => pat.isPrefixOf (c :: t) || occursIn pat t

/-- Any fuel at least the string's length computes the same result. -/
theorem replGoF_fuel_ge {p : Char} {pt rep : Str} :
    ∀ (k : Nat) (s : Str) (n m : Nat), s.length ≤ k → s.length ≤ n → s.length ≤ m →
      replGoF p pt rep n s = replGoF p pt rep m s := by
  intro k
  induction k with
  | zero =>
    intro s n m hk _ _
    have : s = [] := List.length_eq_zero.mp (by omega)
    subst this
    simp [replGoF]
  | succ k ih =>
    intro s n m hk hn hm
    cases s with
    | nil => simp [replGoF]
    | cons c t =>
      simp only [List.length_cons] at hk hn hm
      cases n with
      | zero => omega
      | succ n =>
        cases m with
        | zero => omega
        | succ m =>
          simp only [replGoF]
          split
          · rw [ih (t.drop pt.length) n m
              (by simp only [List.length_drop]; omega)
              (by simp only [List.length_drop]; omega)
              (by simp only [List.length_drop]; omega)]
          · rw [ih t n m (by omega) (by omega) (by omega)]

theorem replGoF_fuel {p : Char} {pt rep : Str} (n : Nat) (s : Str)
    (h : s.length ≤ n) :
    replGoF p pt rep n s = replGoF p pt rep s.length s :=
  replGoF_fuel_ge s.length s n s.length (le_refl _) h (le_refl _)

theorem replGoF_skip {p : Char} {pt rep : Str} :
    ∀ {a s : Str}, (∀ c ∈ a, c ≠ p) →
      replGoF p pt rep (a ++ s).length (a ++ s) =
        a ++ replGoF p pt rep s.length s := by
  intro a
  induction a with
  | nil => intro s _; rfl
  | cons c t ih =>
    intro s h
    have hc : c ≠ p := h c (by simp)
    simp only [List.cons_append, List.length_cons, replGoF, List.append_eq]
    rw [if_neg]
    · rw [ih (fun x hx => h x (by simp [hx]))]
    · simp only [List.isPrefixOf, Bool.and_eq_true, beq_iff_eq]
      intro hcon
      exact hc hcon.1.symm

theorem isPrefixOf_self_append (l s : Str) : l.isPrefixOf (l ++ s) = true := by
  induction l with
  | nil => simp [List.isPrefixOf]
  | cons c t ih => simp [List.isPrefixOf, ih]

theorem replGoF_at {p : Char} {pt rep s : Str} :
    replGoF p pt rep ((p :: pt) ++ s).length ((p :: pt) ++ s) =
      rep ++ replGoF p pt rep s.length s := by
  simp only [List.cons_append, List.length_cons, replGoF, List.append_eq]
  rw [if_pos (show (p :: pt).isPrefixOf (p :: (pt ++ s)) = true by
    have h := isPrefixOf_self_append (p :: pt) s
    simp only [List.cons_append] at h
    exact h)]
  rw [List.drop_left]
  rw [replGoF_fuel ((pt ++ s).length) s (by simp)]

theorem replGoF_no_occur {p : Char} {pt rep : Str} :
    ∀ {s : Str}, occursIn (p :: pt) s = false →
      replGoF p pt rep s.length s = s := by
  intro s
  induction s with
  | nil => intro _; rfl
  | cons c t ih =>
    intro h
    simp only [occursIn, Bool.or_eq_false_iff] at h
    simp only [List.length_cons, replGoF]
    rw [if_neg (by simp [h.1]), ih h.2]

/-- A string containing exactly one occurrence of the pattern:
everything left of it lacks the pattern's first character, everything
right of it lacks the whole pattern. -/
theorem pyReplace_single {p : Char} {pt rep a b : Str}
    (ha : ∀ c ∈ a, c ≠ p) (hb : occursIn (p :: pt) b = false) :
    pyReplace (a ++ (p :: pt) ++ b) (p :: pt) rep = a ++ rep ++ b := by
  unfold pyReplace
  dsimp only
  rw [List.append_assoc, replGoF_skip ha, replGoF_at, replGoF_no_occur hb,
    List.append_assoc]

theorem pyReplace_no_head {s : Str} {p : Char} {pt rep : Str}
    (h : ∀ c ∈ s, c ≠ p) : pyReplace s (p :: pt) rep = s := by
  unfold pyReplace
  dsimp only
  have := @replGoF_skip p pt rep s [] h
  simp only [List.append_nil, replGoF] at this
  exact this

/-! ## C4: group-chat composition -/

def pure_sponsor (f : Nat → Candidate → Str) : Nat → Candidate → Except Unit Str :=
  fun i c => .ok (f i c)

def affiliate_fold (f : Nat → Candidate → Str) : Nat → Str → List Candidate → Str
  | _, acc, [] => acc
  | i, acc, e :: es => affiliate_fold f (i + 1) (pyReplace acc e.full_url (f i e)) es

theorem build_message_group_fold_pure (f : Nat → Candidate → Str) :
    ∀ (es : List Candidate) (i : Nat) (acc : Str),
      build_message_group_fold (pure_sponsor f) i acc es =
        .ok (affiliate_fold f i acc es) := by
  intro es
  induction es with
  | nil => intro i acc; rfl
  | cons e es ih => intro i acc; simp only [build_message_group_fold, pure_sponsor,
      affiliate_fold]; exact ih (i + 1) _

/-- An exemplar template exercising every placeholder and the `\n`
escape (the configured template is arbitrary; the shipped default is
`Message by {USER} with Amazon affiliate link:` + two real newlines +
`{MESSAGE}`). -/
def exemplarTemplate : Str := "Hi {USER}:\\n{MESSAGE}\\n--\\n{ORIGINAL_MESSAGE}".data

/-- C4: in a group chat, `build_message` returns the configured
template after, in order: `\n`-escape normalisation, `{USER}` ←
author mention, `{MESSAGE}` ← original text with every candidate's
matched substring replaced by its resolved URL, `{ORIGINAL_MESSAGE}` ←
untouched original text.  For a concrete template containing each
placeholder once, the output reproduces the template's literal
structure exactly (provided the substituted values do not themselves
contain a placeholder's opening brace). -/
theorem C4_build_message_group (tmpl : Str) (f : Nat → Candidate → Str)
    (chatT message : Str) (cands : List Candidate) (user : TUser)
    (hgrp : is_group chatT = true) :
    (build_message tmpl (pure_sponsor f) chatT message cands user =
      .ok (renderTemplate tmpl (build_mention user)
            (affiliate_fold f 0 message cands) message)) ∧
    (∀ mention aff msg : Str, '{' ∉ mention → '{' ∉ aff →
      renderTemplate exemplarTemplate mention aff msg =
        "Hi ".data ++ mention ++ ":\n".data ++ aff ++ "\n--\n".data ++ msg) := by
  constructor
  · unfold build_message
    rw [if_pos hgrp, build_message_group_fold_pure]
  · intro mention aff msg hm ha
    have hm' : ∀ c ∈ mention, c ≠ '{' := fun c hc heq => hm (heq ▸ hc)
    have ha' : ∀ c ∈ aff, c ≠ '{' := fun c hc heq => ha (heq ▸ hc)
    have hnb : ∀ {x y : Str}, (∀ c ∈ x, c ≠ '{') → (∀ c ∈ y, c ≠ '{') →
        ∀ c ∈ x ++ y, c ≠ '{' := by
      intro x y hx hy c hc
      rcases List.mem_append.mp hc with h | h
      exacts [hx c h, hy c h]
    unfold renderTemplate
    have h1 : pyReplace exemplarTemplate "\\n".data "\n".data =
        "Hi {USER}:\n{MESSAGE}\n--\n{ORIGINAL_MESSAGE}".data := by decide
    rw [h1]
    rw [show ("{USER}".data : Str) = '{' :: "USER\x7d".data from rfl]
    have h2 := @pyReplace_single '{' "USER\x7d".data mention
      "Hi ".data ":\n{MESSAGE}\n--\n{ORIGINAL_MESSAGE}".data
      (by decide) (by decide)
    rw [show ("Hi {USER}:\n{MESSAGE}\n--\n{ORIGINAL_MESSAGE}".data : Str) =
        "Hi ".data ++ ('{' :: "USER\x7d".data) ++ ":\n{MESSAGE}\n--\n{ORIGINAL_MESSAGE}".data
      from by decide]
    rw [h2]
    rw [show ("{MESSAGE}".data : Str) = '{' :: "MESSAGE\x7d".data from rfl]
    have hsc3 : ("Hi ".data ++ mention) ++ ":\n{MESSAGE}\n--\n{ORIGINAL_MESSAGE}".data =
        ((("Hi ".data ++ mention) ++ ":\n".data) ++ ('{' :: "MESSAGE\x7d".data)) ++
          "\n--\n{ORIGINAL_MESSAGE}".data := by
      simp only [List.append_assoc]
      exact congrArg ("Hi ".data ++ ·) (congrArg (mention ++ ·) (by decide))
    rw [hsc3]
    have h3 := @pyReplace_single '{' "MESSAGE\x7d".data aff
      (("Hi ".data ++ mention) ++ ":\n".data)
      "\n--\n{ORIGINAL_MESSAGE}".data
      (hnb (hnb (by decide) hm') (by decide)) (by decide)
    rw [h3]
    rw [show ("{ORIGINAL_MESSAGE}".data : Str) = '{' :: "ORIGINAL_MESSAGE\x7d".data from rfl]
    have hsc4 : ((("Hi ".data ++ mention) ++ ":\n".data) ++ aff) ++
          "\n--\n{ORIGINAL_MESSAGE}".data =
        (((((("Hi ".data ++ mention) ++ ":\n".data) ++ aff) ++ "\n--\n".data) ++
          ('{' :: "ORIGINAL_MESSAGE\x7d".data)) ++ []) := by
      simp only [List.append_assoc, List.append_nil]
      exact congrArg ("Hi ".data ++ ·) (congrArg (mention ++ ·)
        (congrArg (":\n".data ++ ·) (congrArg (aff ++ ·) (by decide))))
    rw [hsc4]
    have h4 := @pyReplace_single '{' "ORIGINAL_MESSAGE\x7d".data msg
      (((("Hi ".data ++ mention) ++ ":\n".data) ++ aff) ++ "\n--\n".data)
      ([] : Str)
      (hnb (hnb (hnb (hnb (by decide) hm') (by decide)) ha') (by decide)) (by rfl)
    rw [h4]
    simp [List.append_assoc]

/-- Witness for C4 at a concrete group message and template. -/
theorem C4_witness :
    (build_message exemplarTemplate (pure_sponsor (fun _ _ => "X".data)) "group".data
        "m".data [] ⟨some "u".data, "F".data, none, 1⟩ =
      .ok (renderTemplate exemplarTemplate (build_mention ⟨some "u".data, "F".data, none, 1⟩)
            (affiliate_fold (fun _ _ => "X".data) 0 "m".data []) "m".data)) ∧
    renderTemplate exemplarTemplate "@u".data "aff".data "orig".data =
      "Hi ".data ++ "@u".data ++ ":\n".data ++ "aff".data ++ "\n--\n".data ++ "orig".data := by
  have h := C4_build_message_group exemplarTemplate (fun _ _ => "X".data) "group".data
      "m".data [] ⟨some "u".data, "F".data, none, 1⟩ (by decide)
  exact ⟨h.1, h.2 "@u".data "aff".data "orig".data (by decide) (by decide)⟩

/-! ## C5: private-chat output and detection order -/

def candidate_lines (f : Nat → Candidate → Str) : Nat → List Candidate → List Str
  | _, [] => []
  | i, e :: es => (bulletMark ++ f i e) :: candidate_lines f (i + 1) es

theorem build_message_private_lines_pure (f : Nat → Candidate → Str) :
    ∀ (es : List Candidate) (i : Nat),
      build_message_private_lines (pure_sponsor f) i es =
        .ok (candidate_lines f i es) := by
  intro es
  induction es with
  | nil => intro i; rfl
  | cons e es ih =>
    intro i
    simp only [build_message_private_lines, pure_sponsor, candidate_lines]
    rw [ih (i + 1)]
    rfl

/-- Successfully produced short candidates carry the matched texts of a
subsequence of the short matches, in match order. -/
theorem short_candidates_sublist (raw : Bool) (resolve : Nat → Str → GLRes) :
    ∀ (ms : List RMatch) (si : Nat) (l : List Candidate),
      (short_candidates raw resolve si ms).1 = .ok l →
      List.Sublist (l.map (fun c => c.full_url)) (ms.map (fun m => m.whole)) := by
  intro ms
  induction ms with
  | nil =>
    intro si l h
    simp only [short_candidates] at h
    injection h with h
    subst h
    simp
  | cons m ms ih =>
    intro si l h
    simp only [short_candidates] at h
    cases hres : (resolve si m.whole).res with
    | none =>
      rw [hres] at h
      dsimp only at h
      exact (ih (si + 1) l h).cons m.whole
    | some r =>
      rw [hres] at h
      dsimp only at h
      cases hsc : short_candidate raw m r with
      | error u =>
        rw [hsc] at h
        dsimp only at h
        exact absurd h (by simp)
      | ok c =>
        rw [hsc] at h
        dsimp only at h
        cases hrest : (short_candidates raw resolve (si + 1) ms).1 with
        | error u => rw [hrest] at h; simp [Except.map] at h
        | ok l2 =>
          rw [hrest] at h
          simp only [Except.map] at h
          injection h with h
          subst h
          simp only [List.map_cons, short_candidate_full_url hsc]
          exact (ih (si + 1) l2 hrest).cons₂ m.whole

/-- C5: in a private chat `build_message` ignores the message body: a
single candidate yields its resolved URL alone, two or more yield one
bullet line per candidate joined by newlines, in list order; the list
handed over by `handle_message` is the raw/full-link family followed by
the short-link family, each family following its matches — which
`finditer` reports in strictly increasing text positions. -/
theorem C5_private_output_detection_order (tmpl : Str) (f : Nat → Candidate → Str)
    (chatT text : Str) (user : TUser) (hpriv : is_group chatT = false) :
    (∀ c : Candidate,
      build_message tmpl (pure_sponsor f) chatT text [c] user = .ok (f 0 c)) ∧
    (∀ cands : List Candidate, 2 ≤ cands.length →
      build_message tmpl (pure_sponsor f) chatT text cands user =
        .ok (List.intercalate "\n".data (candidate_lines f 0 cands))) ∧
    (∀ (raw : Bool) (resolve : Nat → Str → GLRes) (si : Nat)
       (ms : List RMatch) (l : List Candidate),
      (short_candidates raw resolve si ms).1 = .ok l →
      List.Sublist (l.map (fun c => c.full_url)) (ms.map (fun m => m.whole))) ∧
    (∀ (re : RE) (s : Str),
      (finditer re s).Pairwise (fun a b => a.start < b.start)) := by
  refine ⟨?_, ?_, ?_, ?_⟩
  · intro c
    unfold build_message
    rw [if_neg (by simp [hpriv]), if_neg (by simp)]
    rfl
  · intro cands hlen
    unfold build_message
    rw [if_neg (by simp [hpriv]), if_pos (by omega)]
    rw [build_message_private_lines_pure]
    rfl
  · exact fun raw resolve si ms l h => short_candidates_sublist raw resolve ms si l h
  · exact finditer_ordered

theorem C5_witness :
    build_message [] (pure_sponsor (fun _ c => c.full_url)) "private".data
        "ignored body".data
        [⟨none, none, "https://a.example".data⟩, ⟨none, none, "https://b.example".data⟩]
        ⟨none, "U".data, none, 1⟩ =
      .ok "â€¢ https://a.example\nâ€¢ https://b.example".data ∧
    build_message [] (pure_sponsor (fun _ c => c.full_url)) "private".data
        "ignored body".data [⟨none, none, "https://a.example".data⟩]
        ⟨none, "U".data, none, 1⟩ =
      .ok "https://a.example".data := by
  constructor
  · have h := ((C5_private_output_detection_order [] (fun _ c => c.full_url)
      "private".data "ignored body".data ⟨none, "U".data, none, 1⟩ (by decide)).2.1)
      [⟨none, none, "https://a.example".data⟩, ⟨none, none, "https://b.example".data⟩]
      (by decide)
    exact h.trans (by rfl)
  · exact ((C5_private_output_detection_order [] (fun _ c => c.full_url)
      "private".data "ignored body".data ⟨none, "U".data, none, 1⟩ (by decide)).1)
      ⟨none, none, "https://a.example".data⟩

/-! ## C7: top-level fault containment -/

theorem get_long_url_no_bug (chains : Bool) (maxDepth : Nat) (env : Nat → Str → HttpOutcome) :
    ∀ (n idx : Nat) (url : Option Str) (d : Nat), maxDepth - d ≤ n →
      LogEntry.bugReport ∉ (get_long_url chains maxDepth env idx url d).logs := by
  intro n
  induction n with
  | zero =>
    intro idx url d hd
    cases url with
    | none => unfold get_long_url; simp
    | some u =>
      unfold get_long_url
      dsimp only
      split
      · simp
      · split
        · split
          · next hch => exact absurd hch.2 (by omega)
          · simp
        · simp
  | succ n ih =>
    intro idx url d hd
    cases url with
    | none => unfold get_long_url; simp
    | some u =>
      unfold get_long_url
      dsimp only
      split
      · simp
      · rename_i status loc henv
        split
        · split
          · next hch =>
            have hin := ih (idx + 1) loc (d + 1) (by omega)
            cases hres : (get_long_url chains maxDepth env (idx + 1) loc (d + 1)).res with
            | some r =>
              simp only [hres]
              simpa using hin
            | none =>
              simp only [hres]
              simp only [List.mem_append]
              rintro (hmem | hmem)
              · exact hin hmem
              · simp at hmem
          · simp
        · simp

theorem short_candidates_no_bug (raw : Bool) (resolve : Nat → Str → GLRes)
    (hres : ∀ si u, LogEntry.bugReport ∉ (resolve si u).logs) :
    ∀ (ms : List RMatch) (si : Nat),
      LogEntry.bugReport ∉ (short_candidates raw resolve si ms).2 := by
  intro ms
  induction ms with
  | nil => intro si; simp [short_candidates]
  | cons m ms ih =>
    intro si
    simp only [short_candidates]
    cases hr : (resolve si m.whole).res with
    | none =>
      dsimp only
      simp only [List.mem_append]
      rintro (h | h)
      · exact hres si m.whole h
      · exact ih (si + 1) h
    | some r =>
      dsimp only
      cases hsc : short_candidate raw m r with
      | error u =>
        dsimp only
        exact hres si m.whole
      | ok c =>
        dsimp only
        simp only [List.mem_append]
        rintro (h | h)
        · exact hres si m.whole h
        · exact ih (si + 1) h

theorem phase1_collect_no_bug (tld : Str) (resolve : Nat → Str → GLRes)
    (hres : ∀ si u, LogEntry.bugReport ∉ (resolve si u).logs) :
    ∀ (ms : List RMatch) (si : Nat),
      LogEntry.bugReport ∉ (phase1_collect tld resolve si ms).2.1 := by
  intro ms
  induction ms with
  | nil => intro si; simp [phase1_collect]
  | cons m ms ih =>
    intro si
    simp only [phase1_collect]
    split
    · dsimp only
      simp only [List.mem_cons, List.mem_append]
      rintro (h | h | h)
      · exact absurd h (by simp)
      · exact hres si m.whole h
      · exact ih (si + 1) h
    · exact ih si

theorem dns_send_no_log (cfg : Cfg) (env : BotEnv) (msg : TMsg) (text : Str)
    (effs : List Eff) (deleted : Bool) (le : LogEntry)
    (h : Eff.logLine le ∉ effs) :
    Eff.logLine le ∉ (dns_send cfg env msg text effs deleted).1 := by
  unfold dns_send
  split
  · split
    · exact h
    · split
      · exact h
      · split
        · split
          · simpa using h
          · intro hmem
            rcases List.mem_append.mp hmem with hm | hm
            · exact h hm
            · simp at hm
        · simpa using h
  · split
    · exact h
    · split
      · split
        · simpa using h
        · intro hmem
          rcases List.mem_append.mp hmem with hm | hm
          · exact h hm
          · simp at hm
      · simpa using h

theorem delete_and_send_no_log (cfg : Cfg) (env : BotEnv) (msg : TMsg)
    (text : Str) (le : LogEntry) :
    Eff.logLine le ∉ (delete_and_send cfg env msg text).1 := by
  unfold delete_and_send
  split
  · split
    · simp
    · exact dns_send_no_log cfg env msg text _ _ le (by simp)
  · exact dns_send_no_log cfg env msg text _ _ le (by simp)

theorem pm_resolve_no_bug (cfg : Cfg) (env : BotEnv) (si : Nat) (u : Str) :
    LogEntry.bugReport ∉ (pm_resolve cfg env si u).logs :=
  get_long_url_no_bug cfg.check_for_redirect_chains cfg.max_redirect_chain_depth
    (env.http si) cfg.max_redirect_chain_depth 0 (some u) 0 (by omega)

theorem pm_phase_no_bug (cfg : Cfg) (env : BotEnv) (t : Str) :
    LogEntry.bugReport ∉ (pm_phase cfg env t).2.1 := by
  unfold pm_phase
  split
  · exact phase1_collect_no_bug cfg.amazon_tld _ (pm_resolve_no_bug cfg env) _ _
  · simp

theorem pre_effs_no_bug {lp ls : List LogEntry}
    (hp : LogEntry.bugReport ∉ lp) (hs : LogEntry.bugReport ∉ ls) :
    Eff.logLine LogEntry.bugReport ∉ (lp ++ ls).map Eff.logLine := by
  intro hmem
  simp only [List.mem_map, List.mem_append] at hmem
  obtain ⟨le, hle, hinj⟩ := hmem
  have : le = LogEntry.bugReport := by
    cases hinj
    rfl
  subst this
  rcases hle with h | h
  exacts [hp h, hs h]

theorem process_message_no_bug (cfg : Cfg) (env : BotEnv) (msg : TMsg) :
    Eff.logLine LogEntry.bugReport ∉ (process_message cfg env msg).1 := by
  have hpre : ∀ (t : Str) (si : Nat) (ms : List RMatch),
      Eff.logLine LogEntry.bugReport ∉
        ((pm_phase cfg env t).2.1 ++
          (short_candidates cfg.raw_links (pm_resolve cfg env) si ms).2).map Eff.logLine :=
    fun t si ms => pre_effs_no_bug (pm_phase_no_bug cfg env t)
      (short_candidates_no_bug cfg.raw_links _ (pm_resolve_no_bug cfg env) ms si)
  unfold process_message
  split
  · simp
  · split
    · simp
    · dsimp only
      split
      · exact hpre _ _ _
      · split
        · exact hpre _ _ _
        · split
          · exact hpre _ _ _
          · next text2 hbm =>
            split
            · next pr effs u hds =>
              intro hmem
              rcases List.mem_append.mp hmem with hm | hm
              · exact hpre _ _ _ hm
              · have hh := delete_and_send_no_log cfg env msg text2 LogEntry.bugReport
                rw [hds] at hh
                exact hh hm
            · next pr effs deleted hds =>
              intro hmem
              rcases List.mem_append.mp hmem with hm | hm
              · rcases List.mem_append.mp hm with hm2 | hm2
                · exact hpre _ _ _ hm2
                · have hh := delete_and_send_no_log cfg env msg text2 LogEntry.bugReport
                  rw [hds] at hh
                  exact hh hm2
              · simp only [List.mem_map] at hm
                obtain ⟨c, _, hinj⟩ := hm
                simp at hinj

theorem handle_message_body_no_bug (cfg : Cfg) (env : BotEnv) (msg : TMsg) :
    Eff.logLine LogEntry.bugReport ∉ (handle_message_body cfg env msg).1 := by
  unfold handle_message_body
  split
  · exact process_message_no_bug cfg env msg
  · simp

/-- C7 (amended): every fault raised anywhere in per-message processing
is caught by `handle_message`'s top-level handler: the function always
returns (no exception escapes to the dispatch loop), in the fault case
the trace is exactly the effects already performed before the fault
followed by the standard bug-report log line — so nothing further is
deleted or sent after the fault — and the bug-report line can originate
nowhere else.  (Effects performed before the fault — including the
deletion of the original message when a send fails afterwards — do
persist; see the counterexample to the original claim.) -/
theorem C7_top_level_fault_containment (cfg : Cfg) (env : BotEnv) (msg : TMsg) :
    (handle_message cfg env msg =
      (handle_message_body cfg env msg).1 ++
        (match (handle_message_body cfg env msg).2 with
         | .ok _ => []
         | .error _ => [.logLine .bugReport])) ∧
    Eff.logLine LogEntry.bugReport ∉ (handle_message_body cfg env msg).1 := by
  constructor
  · unfold handle_message
    cases h : handle_message_body cfg env msg with
    | mk effs r =>
      cases r <;> simp
  · exact handle_message_body_no_bug cfg env msg

/-- Counterexample to C7 as stated: in a group chat whose deletion
succeeds and whose send then faults, the fault is caught and logged,
but the original message HAS been deleted — the trace of the faulted
message contains the deletion effect, contradicting "the original
message is left untouched / no deletion takes effect". -/
theorem C7_counterexample :
    (handle_message_body
        ⟨none, false, false, false, 2, "{MESSAGE}".data, "com".data, [], []⟩
        ⟨fun _ _ _ => .err, fun _ _ => .ok "https://t.example".data,
          .ok (), fun _ => .error (), fun _ => .error ()⟩
        ⟨"group".data, 1, 2, ⟨some "bob".data, "B".data, none, 5⟩,
          some "https://amazon.com/dp/B012345678".data, none, [], [], none⟩).2 =
      .error () ∧
    Eff.deleteMessage 1 2 ∈ handle_message
        ⟨none, false, false, false, 2, "{MESSAGE}".data, "com".data, [], []⟩
        ⟨fun _ _ _ => .err, fun _ _ => .ok "https://t.example".data,
          .ok (), fun _ => .error (), fun _ => .error ()⟩
        ⟨"group".data, 1, 2, ⟨some "bob".data, "B".data, none, 5⟩,
          some "https://amazon.com/dp/B012345678".data, none, [], [], none⟩ := by
  constructor
  · rfl
  · decide

/-! ## C3: `urllib.parse` machinery and `build_raw_amazon_url`

The pieces of `urllib.parse` used by lines 111-117 (`urlparse`,
`parse_qs`, `urlencode(..., doseq=True)`, `geturl`), embedded from
CPython's implementation.  Percent-coding uses UTF-8 with U+FFFD
replacement on decoding errors. -/

def hexVal (c : Char) : Option Nat :=
  if asciiDigit c then some (c.toNat - 48)
  else if 97 ≤ c.toNat && c.toNat ≤ 102 then some (c.toNat - 87)
  else if 65 ≤ c.toNat && c.toNat ≤ 70 then some (c.toNat - 55)
  else none

/-- The U+FFFD replacement character. -/
def replChar : Char := Char.ofNat 0xFFFD

def contByte (b : Nat) : Bool := 0x80 ≤ b && b ≤ 0xBF

/-- UTF-8 decoding with `errors='replace'` (one U+FFFD per maximal
invalid subpart, as CPython does).  The fuel (instantiated with the
byte count, which always suffices) keeps the recursion structural. -/
def utf8DecodeF : Nat → List Nat → Str
  | _, [] => []
  | 0, _ => []
  | fuel + 1, b :: t =>
    if b < 0x80 then Char.ofNat b :: utf8DecodeF fuel t
    else if 0xC2 ≤ b && b ≤ 0xDF then
      match t with
      | b2 :: t2 =>
        if contByte b2 then Char.ofNat ((b - 0xC0) * 64 + (b2 - 0x80)) :: utf8DecodeF fuel t2
        else replChar :: utf8DecodeF fuel t
      | [] => [replChar]
    else if 0xE0 ≤ b && b ≤ 0xEF then
      match t with
      | b2 :: t2 =>
        if (if b = 0xE0 then 0xA0 ≤ b2 && b2 ≤ 0xBF
            else if b = 0xED then 0x80 ≤ b2 && b2 ≤ 0x9F
            else contByte b2) then
          match t2 with
          | b3 :: t3 =>
            if contByte b3 then
              Char.ofNat ((b - 0xE0) * 4096 + (b2 - 0x80) * 64 + (b3 - 0x80)) :: utf8DecodeF fuel t3
            else replChar :: utf8DecodeF fuel t2
          | [] => [replChar]
        else replChar :: utf8DecodeF fuel t
      | [] => [replChar]
    else if 0xF0 ≤ b && b ≤ 0xF4 then
      match t with
      | b2 :: t2 =>
        if (if b = 0xF0 then 0x90 ≤ b2 && b2 ≤ 0xBF
            else if b = 0xF4 then 0x80 ≤ b2 && b2 ≤ 0x8F
            else contByte b2) then
          match t2 with
          | b3 :: t3 =>
            if contByte b3 then
              match t3 with
              | b4 :: t4 =>
                if contByte b4 then
                  Char.ofNat ((b - 0xF0) * 262144 + (b2 - 0x80) * 4096 +
                    (b3 - 0x80) * 64 + (b4 - 0x80)) :: utf8DecodeF fuel t4
                else replChar :: utf8DecodeF fuel t3
              | [] => [replChar]
            else replChar :: utf8DecodeF fuel t2
          | [] => [replChar]
        else replChar :: utf8DecodeF fuel t
      | [] => [replChar]
    else replChar :: utf8DecodeF fuel t

def utf8Decode (bs : List Nat) : Str := utf8DecodeF bs.length bs

/-- Collect a maximal leading run of valid `%XX` escapes as bytes. -/
def pctRun : Str → List Nat × Str
  | '%' :: a :: b :: t =>
    match hexVal a, hexVal b with
    | some x, some y =>
      match pctRun t with
      | (bs, rest) => ((16 * x + y) :: bs, rest)
    | _, _ => ([], '%' :: a :: b :: t)
  | s => ([], s)

def pyUnquoteF : Nat → Str → Str
  | _, [] => []
  | 0, s => s
  | fuel + 1, c :: t =>
    if c = '%' then
      match pctRun (c :: t) with
      | ([], _) => c :: pyUnquoteF fuel t
      | (bs, rest2) => utf8Decode bs ++ pyUnquoteF fuel rest2
    else c :: pyUnquoteF fuel t

/-- `urllib.parse.unquote` (UTF-8, `errors='replace'`). -/
def pyUnquote (s : Str) : Str := pyUnquoteF s.length s

/-- `urllib.parse.unquote_plus`. -/
def unquote_plus (s : Str) : Str :=
  pyUnquote (s.map (fun c => if c = '+' then ' ' else c))

/-- `urllib.parse`'s always-safe set (with `safe=''`, as `urlencode`
passes by default). -/
def alwaysSafe (c : Char) : Bool :=
  pyAlnum c || c = '_' || c = '.' || c = '-' || c = '~'

def utf8Encode (c : Char) : List Nat :=
  let n := c.toNat
  if n < 0x80 then [n]
  else if n < 0x800 then [0xC0 + n / 64, 0x80 + n % 64]
  else if n < 0x10000 then
    [0xE0 + n / 4096, 0x80 + (n / 64) % 64, 0x80 + n % 64]
  else
    [0xF0 + n / 262144, 0x80 + (n / 4096) % 64, 0x80 + (n / 64) % 64, 0x80 + n % 64]

def hexUpper (n : Nat) : Char :=
  if n < 10 then Char.ofNat (48 + n) else Char.ofNat (55 + n)

/-- `urllib.parse.quote_plus` with `safe=''`. -/
def quote_plus (s : Str) : Str :=
  s.foldr
    (fun c acc =>
      (if alwaysSafe c then [c]
       else if c = ' ' then ['+']
       else (utf8Encode c).foldr (fun b a => '%' :: hexUpper (b / 16) :: hexUpper (b % 16) :: a) [])
      ++ acc) []

/-- `str.split(sep)` (one-character separator). -/
def splitAmp : Str → List Str
  | [] => [[]]
  | c :: t =>
    match splitAmp t with
    | [] => [[c]]
    | h :: r => if c = '&' then [] :: h :: r else (c :: h) :: r

/-- Split at the first occurrence of `sep`; `none` when absent. -/
def splitOnce (sep : Char) : Str → Option (Str × Str)
  | [] => none
  | c :: t =>
    if c = sep then some ([], t)
    else (splitOnce sep t).map (fun pr => (c :: pr.1, pr.2))

/-- `urllib.parse.parse_qsl` with the default flags: `&`-separated
fields; fields without `=` and fields with an empty value are dropped
(`keep_blank_values=False`); names and values are
plus-and-percent-decoded. -/
def parse_qsl (qs : Str) : List (Str × Str) :=
  (if qs.isEmpty then [] else splitAmp qs).filterMap (fun nv =>
    if nv.isEmpty then none
    else match splitOnce '=' nv with
      | none => none
      | some (n, v) =>
        if v.isEmpty then none
        else some (unquote_plus n, unquote_plus v))

/-- One `parse_qs` dictionary step: append to an existing key's list,
else insert the key at the end (Python dicts preserve insertion
order). -/
def qsInsert (acc : List (Str × List Str)) (k : Str) (v : Str) : List (Str × List Str) :=
  if acc.any (fun p => p.1 == k) then
    acc.map (fun p => if p.1 == k then (p.1, p.2 ++ [v]) else p)
  else acc ++ [(k, [v])]

/-- `urllib.parse.parse_qs` (as an insertion-ordered association list). -/
def parse_qs (qs : Str) : List (Str × List Str) :=
  (parse_qsl qs).foldl (fun acc pr => qsInsert acc pr.1 pr.2) []

/-- `urllib.parse.urlencode(query, doseq=True)` over such a dictionary. -/
def urlencodeDoseq (q : List (Str × List Str)) : Str :=
  List.intercalate ['&']
    (q.flatMap (fun p => p.2.map (fun v => quote_plus p.1 ++ '=' :: quote_plus v)))

structure UrlParts where
  scheme : Str
  netloc : Str
  path : Str
  params : Str
  query : Str
  fragment : Str
deriving DecidableEq, Repr

def schemeChar (c : Char) : Bool := pyAlnum c || c = '+' || c = '-' || c = '.'

def notNetlocEnd (c : Char) : Bool := c ≠ '/' && c ≠ '?' && c ≠ '#'

/-- `urllib.parse.urlsplit`: strip leading C0-controls/space, drop
`\t\r\n`, split off scheme, `//netloc`, `#fragment`, `?query`.  A
netloc with unbalanced square brackets raises `ValueError` (`.error`);
bracketed (IPv6) hosts are outside the scope of the theorems below and
their validation is not modelled. -/
def pyUrlsplit (url0 : Str) : Except Unit UrlParts :=
  let u1 := (url0.dropWhile (fun c => c.toNat ≤ 0x20)).filter
    (fun c => c ≠ '\t' && c ≠ '\r' && c ≠ '\n')
  let schemeSplit : Str × Str :=
    match splitOnce ':' u1 with
    | none => ([], u1)
    | some (pre, post) =>
      match pre with
      | [] => ([], u1)
      | c :: cs =>
        if c.toNat ≤ 0x7F && asciiAlpha c && cs.all schemeChar then
          (pre.map Char.toLower, post)
        else ([], u1)
  let scheme := schemeSplit.1
  let rest := schemeSplit.2
  let netlocSplit : Str × Str :=
    match rest with
    | '/' :: '/' :: r => (r.takeWhile notNetlocEnd, r.dropWhile notNetlocEnd)
    | _ => ([], rest)
  let netloc := netlocSplit.1
  let rest2 := netlocSplit.2
  if ('[' ∈ netloc ∧ ']' ∉ netloc) ∨ (']' ∈ netloc ∧ '[' ∉ netloc) then .error ()
  else
    let fragSplit : Str × Str :=
      match splitOnce '#' rest2 with
      | none => (rest2, [])
      | some (a, b) => (a, b)
    let querySplit : Str × Str :=
      match splitOnce '?' fragSplit.1 with
      | none => (fragSplit.1, [])
      | some (a, b) => (a, b)
    .ok ⟨scheme, netloc, querySplit.1, [], querySplit.2, fragSplit.2⟩

/-- `_splitparams` (only called when `;` occurs in the path). -/
def splitParams (url : Str) : Str × Str :=
  if '/' ∈ url then
    let revSplit :=
      match splitOnce '/' url.reverse with
      | none => ([], url)
      | some (revTail, revInit) => (revInit.reverse ++ ['/'], revTail.reverse)
    match splitOnce ';' revSplit.2 with
    | none => (url, [])
    | some (a, b) => (revSplit.1 ++ a, b)
  else
    match splitOnce ';' url with
    | none => (url, [])
    | some (a, b) => (a, b)

/-- `urllib.parse.urlparse`. -/
def pyUrlparse (url0 : Str) : Except Unit UrlParts :=
  match pyUrlsplit url0 with
  | .error u => .error u
  | .ok p =>
    if ';' ∈ p.path then
      let pr := splitParams p.path
      .ok { p with path := pr.1, params := pr.2 }
    else .ok p

/-- `urlunparse ∘ _replace` as performed by `geturl`. -/
def pyUrlunparse (p : UrlParts) : Str :=
  let url := if p.params.isEmpty then p.path else p.path ++ ';' :: p.params
  let url :=
    if !p.netloc.isEmpty || (!url.isEmpty && url.take 2 = "//".data) then
      '/' :: '/' :: p.netloc ++ (if !url.isEmpty && url.take 1 ≠ "/".data then '/' :: url else url)
    else url
  let url := if p.scheme.isEmpty then url else p.scheme ++ ':' :: url
  let url := if p.query.isEmpty then url else url ++ '?' :: p.query
  if p.fragment.isEmpty then url else url ++ '#' :: p.fragment

/-- `query['tag'] = [selected_tag]` on the insertion-ordered dict:
overwrite in place when the key exists, append otherwise. -/
def qsSetTag (q : List (Str × List Str)) (tag : Str) : List (Str × List Str) :=
  if q.any (fun p => p.1 == "tag".data) then
    q.map (fun p => if p.1 == "tag".data then (p.1, [tag]) else p)
  else q ++ [("tag".data, [tag])]

/-- Lines 101-117, with the randomly selected tag passed in (its
selection is `get_amazon_tag`, the subject of C9). -/
def build_raw_amazon_url (element : Candidate) (selected_tag : Str) :
    Except Unit Str :=
  let url := pyOrStr element.expanded_url element.full_url
  match pyUrlparse url with
  | .error u => .error u
  | .ok parts =>
    .ok (pyUrlunparse { parts with
      query := urlencodeDoseq (qsSetTag (parse_qs parts.query) selected_tag) })

def lookupQ (k : Str) (q : List (Str × List Str)) : Option (List Str) :=
  (q.find? (fun p => p.1 == k)).map (fun p => p.2)

theorem find?_append_none {α : Type} {l1 l2 : List α} {p : α → Bool}
    (h : l1.find? p = none) : (l1 ++ l2).find? p = l2.find? p := by
  induction l1 with
  | nil => rfl
  | cons a l ih =>
    simp only [List.find?_cons] at h ⊢
    cases hp : p a with
    | true => rw [hp] at h; simp at h
    | false =>
      rw [hp] at h
      simp only [List.cons_append, List.find?_cons, hp]
      exact ih h

theorem find?_append_some {α : Type} {l1 l2 : List α} {p : α → Bool} {x : α}
    (h : l1.find? p = some x) : (l1 ++ l2).find? p = some x := by
  induction l1 with
  | nil => simp at h
  | cons a l ih =>
    simp only [List.find?_cons] at h ⊢
    cases hp : p a with
    | true => rw [hp] at h; simpa [List.find?_cons, hp] using h
    | false =>
      rw [hp] at h
      simp only [List.cons_append, List.find?_cons, hp]
      exact ih h

theorem setTag_map_key (p : Str × List Str) (tag : Str) :
    (if p.1 == "tag".data then (p.1, [tag]) else p).1 = p.1 := by
  split <;> rfl

theorem insAdd_map_key (p : Str × List Str) (k : Str) (v : Str) :
    (if p.1 == k then (p.1, p.2 ++ [v]) else p).1 = p.1 := by
  split <;> rfl

theorem findEntry_map (f : Str × List Str → Str × List Str)
    (hf : ∀ p, (f p).1 = p.1) (k : Str) :
    ∀ q : List (Str × List Str),
      (q.map f).find? (fun p => p.1 == k) = (q.find? (fun p => p.1 == k)).map f := by
  intro q
  induction q with
  | nil => rfl
  | cons p q ih =>
    simp only [List.map_cons, List.find?_cons, hf p]
    cases hpk : (p.1 == k) with
    | true => rfl
    | false => exact ih

theorem lookupQ_eq_findEntry (k : Str) (q : List (Str × List Str)) :
    lookupQ k q = (q.find? (fun p => p.1 == k)).map (fun p => p.2) := rfl

theorem any_key_find (q : List (Str × List Str)) (k : Str)
    (h : q.any (fun p => p.1 == k) = true) :
    ∃ e, q.find? (fun p => p.1 == k) = some e ∧ e.1 = k := by
  cases hf : q.find? (fun p => p.1 == k) with
  | none =>
    rw [List.find?_eq_none] at hf
    obtain ⟨x, hx, hpx⟩ := List.any_eq_true.mp h
    exact absurd hpx (hf x hx)
  | some e =>
    refine ⟨e, rfl, ?_⟩
    simpa using List.find?_some hf

theorem not_any_find (q : List (Str × List Str)) (k : Str)
    (h : ¬ q.any (fun p => p.1 == k) = true) :
    q.find? (fun p => p.1 == k) = none := by
  rw [List.find?_eq_none]
  intro x hx hpx
  exact h (List.any_eq_true.mpr ⟨x, hx, hpx⟩)

/-- `query['tag'] = [tag]` makes `tag` map to exactly `[tag]`. -/
theorem qsSetTag_lookup_tag (q : List (Str × List Str)) (tag : Str) :
    lookupQ "tag".data (qsSetTag q tag) = some [tag] := by
  unfold qsSetTag
  split
  · next hany =>
    obtain ⟨e, hfe, hek⟩ := any_key_find q "tag".data hany
    rw [lookupQ_eq_findEntry, findEntry_map _ (fun p => setTag_map_key p tag), hfe]
    dsimp only [Option.map]
    split
    · rfl
    · next hne => exact absurd (show (e.1 == "tag".data) = true by simp [hek]) hne
  · next hany =>
    have hnone := not_any_find q "tag".data hany
    rw [lookupQ_eq_findEntry, find?_append_none hnone]
    rfl

/-- Keys other than `tag` keep their value lists. -/
theorem qsSetTag_lookup_other (q : List (Str × List Str)) (tag k : Str)
    (hk : k ≠ "tag".data) :
    lookupQ k (qsSetTag q tag) = lookupQ k q := by
  unfold qsSetTag
  split
  · rw [lookupQ_eq_findEntry, lookupQ_eq_findEntry,
      findEntry_map _ (fun p => setTag_map_key p tag)]
    cases hf : q.find? (fun p => p.1 == k) with
    | none => rfl
    | some e =>
      dsimp only [Option.map]
      have hek : e.1 = k := by simpa using List.find?_some hf
      split
      · next htag =>
        have : e.1 = "tag".data := by simpa using htag
        exact absurd (hek.symm.trans this) hk
      · rfl
  · rw [lookupQ_eq_findEntry, lookupQ_eq_findEntry]
    cases hf : q.find? (fun p => p.1 == k) with
    | some e => rw [find?_append_some hf]
    | none =>
      rw [find?_append_none hf]
      have hne : ¬ ("tag".data == k) = true := by
        simp only [beq_iff_eq]
        exact Ne.symm hk
      simp [List.find?_cons, hne]

theorem qsInsert_pairwise {acc : List (Str × List Str)} {k : Str} {v : Str}
    (h : acc.Pairwise (fun a b => a.1 ≠ b.1)) :
    (qsInsert acc k v).Pairwise (fun a b => a.1 ≠ b.1) := by
  unfold qsInsert
  split
  · refine List.pairwise_map.mpr ?_
    refine h.imp ?_
    intro a b hab
    rw [insAdd_map_key a k v, insAdd_map_key b k v]
    exact hab
  · next hany =>
    refine List.pairwise_append.mpr ⟨h, by simp, ?_⟩
    intro a ha b hb
    simp only [List.mem_singleton] at hb
    subst hb
    intro hak
    exact hany (List.any_eq_true.mpr ⟨a, ha, by simp [hak]⟩)

theorem parse_qs_foldl_pairwise :
    ∀ (l : List (Str × Str)) (acc : List (Str × List Str)),
      acc.Pairwise (fun a b => a.1 ≠ b.1) →
      (l.foldl (fun acc pr => qsInsert acc pr.1 pr.2) acc).Pairwise
        (fun a b => a.1 ≠ b.1) := by
  intro l
  induction l with
  | nil => intro acc h; exact h
  | cons pr l ih =>
    intro acc h
    exact ih _ (qsInsert_pairwise h)

theorem parse_qs_pairwise (qs : Str) :
    (parse_qs qs).Pairwise (fun a b => a.1 ≠ b.1) :=
  parse_qs_foldl_pairwise _ [] (by simp)

theorem countP_key_eq_one (k : Str) :
    ∀ q : List (Str × List Str), q.Pairwise (fun a b => a.1 ≠ b.1) →
      q.any (fun p => p.1 == k) = true →
      q.countP (fun p => p.1 == k) = 1 := by
  intro q
  induction q with
  | nil => intro _ h; simp at h
  | cons p q ih =>
    intro hnd hany
    have hnd2 := List.pairwise_cons.mp hnd
    rw [List.countP_cons]
    cases hpk : (p.1 == k) with
    | true =>
      have hp1 : p.1 = k := by simpa using hpk
      have hz : q.countP (fun p => p.1 == k) = 0 := by
        rw [List.countP_eq_zero]
        intro a ha hak
        have h1 : a.1 = k := by simpa using hak
        exact (hnd2.1 a ha) (hp1.trans h1.symm)
      rw [hz]
      simp
    | false =>
      simp only [List.any_cons, hpk, Bool.false_or] at hany
      rw [ih hnd2.2 hany]
      simp

/-- After the overwrite, the `tag` key occurs exactly once, because
`parse_qs` builds a duplicate-free dictionary. -/
theorem qsSetTag_count_one (q : List (Str × List Str)) (tag : Str)
    (hnd : q.Pairwise (fun a b => a.1 ≠ b.1)) :
    (qsSetTag q tag).countP (fun p => p.1 == "tag".data) = 1 := by
  unfold qsSetTag
  split
  · next hany =>
    rw [List.countP_map]
    have hc := List.countP_congr (l := q)
      (p := (fun p => p.1 == "tag".data) ∘ (fun p => if p.1 == "tag".data then (p.1, [tag]) else p))
      (q := fun p => p.1 == "tag".data)
      (fun x _ => by
        cases hx : (x.1 == "tag".data) with
        | true =>
          have hx2 : x.1 = "tag".data := by simpa using hx
          simp [hx2]
        | false =>
          have hx2 : ¬ x.1 = "tag".data := by simpa using hx
          simp [hx2])
    rw [hc]
    exact countP_key_eq_one _ q hnd hany
  · next hany =>
    rw [List.countP_append]
    have hz : q.countP (fun p => p.1 == "tag".data) = 0 := by
      rw [List.countP_eq_zero]
      intro a ha hak
      exact hany (List.any_eq_true.mpr ⟨a, ha, hak⟩)
    rw [hz]
    rfl

theorem qsInsert_lookup_self (acc : List (Str × List Str)) (k : Str) (v : Str) :
    v ∈ (lookupQ k (qsInsert acc k v)).getD [] := by
  unfold qsInsert
  split
  · next hany =>
    obtain ⟨e, hfe, hek⟩ := any_key_find acc k hany
    rw [lookupQ_eq_findEntry, findEntry_map _ (fun p => insAdd_map_key p k v), hfe]
    dsimp only [Option.map, Option.getD]
    split
    · simp
    · next hne => exact absurd (show (e.1 == k) = true by simp [hek]) hne
  · next hany =>
    have hnone := not_any_find acc k hany
    rw [lookupQ_eq_findEntry, find?_append_none hnone]
    simp [List.find?_cons]

theorem qsInsert_lookup_mono (acc : List (Str × List Str)) (k : Str) (v : Str)
    (k2 v2 : Str) (h : v ∈ (lookupQ k acc).getD []) :
    v ∈ (lookupQ k (qsInsert acc k2 v2)).getD [] := by
  unfold qsInsert
  split
  · rw [lookupQ_eq_findEntry] at h
    rw [lookupQ_eq_findEntry, findEntry_map _ (fun p => insAdd_map_key p k2 v2)]
    cases hf : acc.find? (fun p => p.1 == k) with
    | none => rw [hf] at h; simp at h
    | some e =>
      rw [hf] at h
      dsimp only [Option.map, Option.getD] at h ⊢
      split
      · exact List.mem_append_left _ h
      · exact h
  · rw [lookupQ_eq_findEntry] at h
    rw [lookupQ_eq_findEntry]
    cases hf : acc.find? (fun p => p.1 == k) with
    | none => rw [hf] at h; simp at h
    | some e =>
      rw [find?_append_some hf]
      rw [hf] at h
      exact h

theorem parse_qs_foldl_mem :
    ∀ (l : List (Str × Str)) (acc : List (Str × List Str)) (k : Str) (v : Str),
      ((k, v) ∈ l ∨ v ∈ (lookupQ k acc).getD []) →
      v ∈ (lookupQ k (l.foldl (fun acc pr => qsInsert acc pr.1 pr.2) acc)).getD [] := by
  intro l
  induction l with
  | nil =>
    intro acc k v h
    rcases h with h | h
    · simp at h
    · exact h
  | cons pr l ih =>
    intro acc k v h
    simp only [List.foldl_cons]
    rcases h with h | h
    · rcases List.mem_cons.mp h with h | h
      · rw [show pr = (k, v) from h.symm]
        exact ih _ k v (Or.inr (qsInsert_lookup_self acc k v))
      · exact ih _ k v (Or.inl h)
    · exact ih _ k v (Or.inr (qsInsert_lookup_mono acc k v pr.1 pr.2 h))

/-- C3 (amended): raw-link mode re-serialises the parsed components of
the best available URL with only the query replaced: the new query's
dictionary maps `tag` to exactly the selected tag (key present exactly
once — overwritten in place, never appended or duplicated), every
other key keeps its value list, and every decoded name/value pair of
the original query string *with a non-empty value* (empty-valued
parameters are silently dropped by `parse_qs`, and the scheme is
lowercased by parsing — see the counterexample to the verbatim claim)
is still present under its key. -/
theorem C3_build_raw_amazon_url_amended (element : Candidate) (tag : Str)
    (parts : UrlParts)
    (hp : pyUrlparse (pyOrStr element.expanded_url element.full_url) = .ok parts) :
    (build_raw_amazon_url element tag =
      .ok (pyUrlunparse { parts with
        query := urlencodeDoseq (qsSetTag (parse_qs parts.query) tag) })) ∧
    lookupQ "tag".data (qsSetTag (parse_qs parts.query) tag) = some [tag] ∧
    (qsSetTag (parse_qs parts.query) tag).countP (fun p => p.1 == "tag".data) = 1 ∧
    (∀ k, k ≠ "tag".data →
      lookupQ k (qsSetTag (parse_qs parts.query) tag) =
        lookupQ k (parse_qs parts.query)) ∧
    (∀ kv ∈ parse_qsl parts.query, kv.1 ≠ "tag".data →
      kv.2 ∈ (lookupQ kv.1 (qsSetTag (parse_qs parts.query) tag)).getD []) := by
  refine ⟨?_, qsSetTag_lookup_tag _ tag, qsSetTag_count_one _ tag (parse_qs_pairwise _),
    fun k hk => qsSetTag_lookup_other _ tag k hk, ?_⟩
  · unfold build_raw_amazon_url
    dsimp only
    rw [hp]
  · intro kv hkv hk
    rw [qsSetTag_lookup_other _ tag kv.1 hk]
    exact parse_qs_foldl_mem _ [] kv.1 kv.2 (Or.inl hkv)

/-- Modelled from the spec: the plain reading of "every query
parameter of the input" — the `&`-separated fields of the query
string, split at their first `=` (a field without `=` has an empty
value), names and values percent-decoded. -/
def specQueryParams (q : Str) : List (Str × Str) :=
  (if q.isEmpty then [] else splitAmp q).map (fun f =>
    match splitOnce '=' f with
    | none => (unquote_plus f, [])
    | some pr => (unquote_plus pr.1, unquote_plus pr.2))

def queryOfUrl (s : Str) : Str :=
  match pyUrlparse s with
  | .ok p => p.query
  | .error _ => []

/-- Counterexample to C3 as stated: for the input URL
`https://www.amazon.com/dp/B08N5WRWNW?foo=&x=1`, the rebuilt URL keeps
`x=1` and gains exactly one `tag`, but the blank-valued input
parameter `foo` has disappeared — the output's query does NOT contain
every query parameter of the input other than `tag`. -/
theorem C3_counterexample :
    build_raw_amazon_url
        ⟨none, none, "https://www.amazon.com/dp/B08N5WRWNW?foo=&x=1".data⟩
        "mytag-20".data =
      .ok "https://www.amazon.com/dp/B08N5WRWNW?x=1&tag=mytag-20".data ∧
    ("foo".data, ([] : Str)) ∈
      specQueryParams (queryOfUrl "https://www.amazon.com/dp/B08N5WRWNW?foo=&x=1".data) ∧
    ("foo".data, ([] : Str)) ∉
      specQueryParams (queryOfUrl "https://www.amazon.com/dp/B08N5WRWNW?x=1&tag=mytag-20".data) := by
  refine ⟨by rfl, by decide, by decide⟩

theorem C3_witness :
    build_raw_amazon_url
        ⟨none, none, "https://www.amazon.com/dp/B08N5WRWNW?foo=&x=1".data⟩
        "mytag-20".data =
      .ok "https://www.amazon.com/dp/B08N5WRWNW?x=1&tag=mytag-20".data ∧
    lookupQ "tag".data
        (qsSetTag (parse_qs (queryOfUrl "https://www.amazon.com/dp/B08N5WRWNW?foo=&x=1".data))
          "mytag-20".data) =
      some ["mytag-20".data] := by
  have h := C3_build_raw_amazon_url_amended
    ⟨none, none, "https://www.amazon.com/dp/B08N5WRWNW?foo=&x=1".data⟩
    "mytag-20".data
    ⟨"https".data, "www.amazon.com".data, "/dp/B08N5WRWNW".data, [], "foo=&x=1".data, []⟩
    (by rfl)
  exact ⟨h.1.trans (by rfl), h.2.1⟩

